import Mathlib

/-!
# myshell: a shallow embedding of `src/myshell.cpp`

The shell reads lines, splits them into whitespace-delimited tokens, strips a
trailing `&`, scans for the redirection operators `<`, `>`, `>>`, and then
either runs a built-in in-process or forks an external program.

Conventions of the embedding:

* a `std::string` is a `List Char` (`Str`); the C locale decides what is
  whitespace, and no byte of a multi-byte UTF-8 sequence is whitespace there,
  so working on code points instead of bytes does not change tokenisation;
* everything the process can observe or change is a field of `World`
  (working directory, `environ`, what was written to `cout`, the `perror`
  calls, the state of `cin`, the `fork`ed children);
* what the operating system decides (`chdir`, `opendir`, `fork`, opening the
  batch file) is a field of `Sys`;
* `tokens[i+1]` with `i+1 == tokens.size()` is undefined behaviour in C++; the
  embedding stops there with `Outcome.undefinedBehaviour`;
* loops that the source writes with `while` carry a fuel argument; the
  theorems state how much fuel is enough, or that no amount is;
* a C library function that takes `s.c_str()` sees the string only up to its
  first NUL character (`cstr`); a token can hold one, since `getline` and
  `operator>>` keep it and it is not whitespace. The answers in `Sys` are
  given for the `std::string` the call is made with.
-/

namespace MyShell

/-- A `std::string`. -/
abbrev Str := List Char

/-! ## Tokenizer (lines 20-27) -/

/-- The predicate `std::isspace` in the "C" locale, which is what `operator>>` consults:
space, `\t`, `\n`, `\v`, `\f`, `\r`. -/
def isspace (c : Char) : Bool :=
  c == ' ' || c == '\t' || c == '\n' || c == Char.ofNat 11 || c == Char.ofNat 12 || c == '\r'

/-- One `ss >> word`: skip leading whitespace, then take characters up to the
next whitespace or the end. With nothing taken the extraction fails (`none`);
otherwise the word and the unread remainder come back. -/
def extractWord (ss : List Char) : Option (Str × List Char) :=
  let rest := ss.dropWhile isspace
  let word := rest.takeWhile (fun c => !isspace c)
  if word.isEmpty then none else some (word, rest.dropWhile (fun c => !isspace c))

/-- The loop `while (ss >> word) tokens.push_back(word);`. Every successful
extraction consumes a character, so `ss.length + 1` rounds always suffice
(`tokenizeLoop_fuel`). -/
def tokenizeLoop : Nat → List Char → List Str → List Str
  | 0, _, tokens => tokens
  | fuel + 1, ss, tokens =>
    match extractWord ss with
    | none => tokens
    | some (word, ss') => tokenizeLoop fuel ss' (tokens ++ [word])

/-- The function `vector<string> tokenize(string input)` (lines 20-27). -/
def tokenize (input : Str) : List Str :=
  tokenizeLoop (input.length + 1) input []

/-- The maximal runs of non-whitespace characters of a line, following the
words of the specification: cut the line at every whitespace character and
keep the pieces that are not empty. -/
def maximalRuns (line : Str) : List Str :=
  (line.splitOnP isspace).filter (fun piece => !piece.isEmpty)

/-! ## Command classifier (lines 131-152) -/

/-- The locals `cleaned`, `background`, `inputFile`, `outputFile`, `append` of
`processCommand`. -/
structure Parsed where
  cleaned : List Str
  background : Bool
  inputFile : Str
  outputFile : Str
  append : Bool
deriving DecidableEq

/-- The three tokens the scan compares against. -/
def isRedirOp (t : Str) : Bool :=
  t == "<".toList || t == ">".toList || t == ">>".toList

/-- Lines 139-143: `if (tokens.back() == "&") { background = true; tokens.pop_back(); }`. -/
def stripBackground (tokens : List Str) : Bool × List Str :=
  if tokens.getLast? = some "&".toList then (true, tokens.dropLast) else (false, tokens)

/-- The `for` loop of lines 147-152, on the tokens from position `i` on: the
head of the list is `tokens[i]`, the head of its tail is `tokens[i+1]`. An
operator in last position makes the source read `tokens[tokens.size()]`,
which is out of bounds: `none`. -/
def scan : List Str → Parsed → Option Parsed
  | [], pc => some pc
  | t :: rest, pc =>
    if t = "<".toList then
      match rest with
      | [] => none
      | target :: rest' => scan rest' { pc with inputFile := target }
    else if t = ">".toList then
      match rest with
      | [] => none
      | target :: rest' => scan rest' { pc with outputFile := target, append := false }
    else if t = ">>".toList then
      match rest with
      | [] => none
      | target :: rest' => scan rest' { pc with outputFile := target, append := true }
    else scan rest { pc with cleaned := pc.cleaned ++ [t] }

/-- The values of the locals at line 131-134 and 146, given the flag. -/
def initialParsed (background : Bool) : Parsed :=
  { cleaned := [], background := background, inputFile := [], outputFile := [], append := false }

/-- Lines 131-152 for a non-empty token sequence: background check, then the
redirection scan. `none` is the out-of-bounds read. -/
def classify (tokens : List Str) : Option Parsed :=
  scan (stripBackground tokens).2 (initialParsed (stripBackground tokens).1)

/-! ### The scan described position by position

These definitions follow the wording of the specification rather than the
loop: a position is *reached* by the scan unless it comes right after a
reached operator (then it is that operator's target). -/

/-- Position `i` is inspected by the scan as `tokens[i]`. -/
def reached (tokens : List Str) : Nat → Bool
  | 0 => true
  | i + 1 => !(reached tokens i && isRedirOp (tokens.getD i []))

/-- Position `i` holds a redirection operator that the scan acts upon. -/
def isOperatorAt (tokens : List Str) (i : Nat) : Bool :=
  reached tokens i && isRedirOp (tokens.getD i [])

/-- Position `i` holds the target of an operator the scan acts upon. -/
def isTargetAt (tokens : List Str) (i : Nat) : Bool :=
  !reached tokens i

/-- Position `i` is neither an operator nor the token right after one. -/
def isArgumentAt (tokens : List Str) (i : Nat) : Bool :=
  !isOperatorAt tokens i && !isTargetAt tokens i

/-- The tokens at argument positions, in their original order. -/
def argumentTokens (tokens : List Str) : List Str :=
  ((List.range tokens.length).filter (isArgumentAt tokens)).map (fun i => tokens.getD i [])

/-- Every operator the scan acts upon has a following token. -/
def wellFormed (tokens : List Str) : Bool :=
  (List.range tokens.length).all
    (fun i => !isOperatorAt tokens i || decide (i + 1 < tokens.length))

/-- The position of the last operator acted upon that satisfies `p`. -/
def lastOperator (p : Str → Bool) (tokens : List Str) : Option Nat :=
  ((List.range tokens.length).filter
    (fun i => isOperatorAt tokens i && p (tokens.getD i []))).getLast?

/-- The token `>` or `>>`. -/
def isOutputOp (t : Str) : Bool := t == ">".toList || t == ">>".toList

/-- The token `<`. -/
def isInputOp (t : Str) : Bool := t == "<".toList

/-- The target of the last operator acted upon that satisfies `p`: the token
right after it; `dflt` when there is no such operator. -/
def targetOfLast (p : Str → Bool) (tokens : List Str) (dflt : Str) : Str :=
  match lastOperator p tokens with
  | none => dflt
  | some i => tokens.getD (i + 1) []

/-- Whether the last output operator acted upon is `>>`; `dflt` when there is
no output operator. -/
def appendOfLast (tokens : List Str) (dflt : Bool) : Bool :=
  match lastOperator isOutputOp tokens with
  | none => dflt
  | some i => tokens.getD i [] == ">>".toList

/-- The result of the scan, in the words of the position-wise description. -/
def scanResult (tokens : List Str) (pc : Parsed) : Parsed :=
  { cleaned := pc.cleaned ++ argumentTokens tokens,
    background := pc.background,
    inputFile := targetOfLast isInputOp tokens pc.inputFile,
    outputFile := targetOfLast isOutputOp tokens pc.outputFile,
    append := appendOfLast tokens pc.append }

/-! ## The process and its surroundings -/

/-- An input stream (`cin`, or the batch `ifstream`): the unread characters
and the two state bits the source depends on. -/
structure IStream where
  buf : List Char
  eofbit : Bool
  failbit : Bool
deriving DecidableEq

/-- The test `stream.good()`. -/
def IStream.good (s : IStream) : Bool := !s.eofbit && !s.failbit

/-- One call of `executeExternal` whose `fork` succeeded: the arguments the
child was started with. -/
structure Spawn where
  args : List Str
  background : Bool
  inputFile : Str
  outputFile : Str
  append : Bool
  pid : Nat
deriving DecidableEq

/-- What the shell process owns or has done so far. -/
structure World where
  /-- The working directory as `getcwd` reports it. -/
  cwd : Str
  /-- The array `environ`: entries of the form `NAME=value`. -/
  env : List Str
  /-- Everything written to `cout` by the shell process itself. -/
  out : List Char
  /-- The argument of every `perror` call, in order. -/
  err : List Str
  /-- Standard input. -/
  cin : IStream
  /-- The children created by `executeExternal`, in order. -/
  spawned : List Spawn
deriving DecidableEq

/-- The answers of the operating system. -/
structure Sys where
  /-- `chdir(path)` from the given working directory: the new working
  directory, or `none` when the call fails. -/
  chdir : Str → Str → Option Str
  /-- `opendir`/`readdir` on a path from the given working directory: the
  entry names in the order returned, or `none` when `opendir` fails. -/
  readdir : Str → Str → Option (List Str)
  /-- `fork()`, given how many children exist already: the child's pid, or
  `none` when it fails. -/
  fork : Nat → Option Nat
  /-- `ifstream file(path)`: the content of the file, or `none` when it cannot
  be opened. -/
  openFile : Str → Option (List Char)

/-- How a piece of the program ends. -/
inductive Outcome where
  /-- The function returned to its caller. -/
  | continues (w : World)
  /-- The process ended with this exit status (`exit(n)` or `return n` from `main`). -/
  | exited (status : Nat) (w : World)
  /-- The source read `tokens[tokens.size()]`. -/
  | undefinedBehaviour (w : World)
  /-- The loop is still running when the fuel is used up. -/
  | running (w : World)
deriving DecidableEq

/-! ### Environment (`getenv`/`setenv` of the C library, `environ`) -/

/-- The C string behind `s.c_str()`: the characters before the first NUL. -/
def cstr (s : Str) : Str :=
  s.takeWhile (fun c => c != Char.ofNat 0)

/-- An entry of `environ` belongs to `name`: it starts with `name=`. -/
def entryMatches (name entry : Str) : Bool :=
  (name ++ ['=']).isPrefixOf entry

/-- The call `getenv(name)`: the value of the first entry belonging to `name`. -/
def getenv (name : Str) (env : List Str) : Option Str :=
  (env.find? (entryMatches name)).map (fun entry => entry.drop (name.length + 1))

/-- The successful part of `setenv(name, value, 1)`: overwrite the first entry
belonging to `name`, or add one at the end. -/
def overwriteEntry (name value : Str) : List Str → List Str
  | [] => [name ++ '=' :: value]
  | entry :: entries =>
    if entryMatches name entry then (name ++ '=' :: value) :: entries
    else entry :: overwriteEntry name value entries

/-- The call `setenv(name, value, 1)`. POSIX: the call fails with `EINVAL`, changing
nothing, when the name is empty or contains `=`. The source ignores the
return value. -/
def setenv (name value : Str) (env : List Str) : List Str :=
  if name.isEmpty || name.contains '=' then env else overwriteEntry name value env

/-! ### Streams -/

/-- The call `getline(stream, str)`. A stream that is not good fails at the sentry:
`failbit` is set and `str` is left as it was. Otherwise `str` is erased and
characters are taken up to and including the next newline; ending at
end-of-input sets `eofbit`, and also `failbit` when nothing at all was
taken. -/
def getline (s : IStream) (str : Str) : Str × IStream :=
  if !s.good then (str, { s with failbit := true })
  else
    let line := s.buf.takeWhile (fun c => c != '\n')
    match s.buf.dropWhile (fun c => c != '\n') with
    | [] => (line, { buf := [], eofbit := true, failbit := line.isEmpty })
    | _ :: rest => (line, { s with buf := rest })

/-- The call `cin.ignore()`: discard one character; end-of-input sets `eofbit`. -/
def ignore1 (s : IStream) : IStream :=
  if !s.good then { s with failbit := true }
  else
    match s.buf with
    | [] => { s with eofbit := true }
    | _ :: rest => { s with buf := rest }

/-- The call `cin.get()`: read one character; end-of-input sets `eofbit` and `failbit`. -/
def get1 (s : IStream) : IStream :=
  if !s.good then { s with failbit := true }
  else
    match s.buf with
    | [] => { s with eofbit := true, failbit := true }
    | _ :: rest => { s with buf := rest }

/-! ### Helper functions of the source -/

/-- The function `displayPrompt` (lines 30-34). -/
def displayPrompt (w : World) : World :=
  { w with out := w.out ++ w.cwd ++ " > ".toList }

/-- The function `listDirectory` (lines 37-47). -/
def listDirectory (sys : Sys) (path : Str) (w : World) : World :=
  match sys.readdir w.cwd path with
  | none => { w with err := w.err ++ ["dir".toList] }
  | some entries => { w with out := w.out ++ (entries.map (fun e => e ++ ['\n'])).flatten }

/-- The function `printEnvironment` (lines 50-53). -/
def printEnvironment (w : World) : World :=
  { w with out := w.out ++ (w.env.map (fun e => e ++ ['\n'])).flatten }

/-- The function `pauseShell` (lines 56-60). -/
def pauseShell (w : World) : World :=
  { w with
    out := w.out ++ "Shell paused. Press Enter to continue...".toList,
    cin := get1 (ignore1 w.cin) }

/-- The text printed by `help` (lines 63-73). -/
def helpText : Str :=
  ("\n----- MyShell Help -----\n" ++
   "cd [dir]        Change directory\n" ++
   "dir [dir]       List directory contents\n" ++
   "environ         List environment variables\n" ++
   "set var value   Set environment variable\n" ++
   "echo text       Display text\n" ++
   "pause           Wait for Enter\n" ++
   "quit            Exit shell\n" ++
   "Supports redirection (<, >, >>) and background (&)\n").toList

/-- The function `help` (lines 63-73). -/
def help (w : World) : World :=
  { w with out := w.out ++ helpText }

/-- The function `executeExternal` (lines 77-125), seen from the shell process. The child
applies the redirections and calls `execvp`; the shell records what it
started, then waits (foreground) or prints the pid (background). -/
def executeExternal (sys : Sys) (tokens : List Str) (background : Bool)
    (inputFile outputFile : Str) (append : Bool) (w : World) : World :=
  match sys.fork w.spawned.length with
  | none => { w with err := w.err ++ ["fork failed".toList] }
  | some pid =>
    let w1 := { w with spawned := w.spawned ++
      [{ args := tokens, background := background, inputFile := inputFile,
         outputFile := outputFile, append := append, pid := pid }] }
    if !background then w1
    else { w1 with out := w1.out ++ "Process running in background PID: ".toList ++
             (toString pid).toList ++ ['\n'] }

/-- What the built-in `echo` prints (lines 179-180): every word followed by
one space, then a newline. -/
def echoText (words : List Str) : Str :=
  (words.map (fun word => word ++ [' '])).flatten ++ ['\n']

/-- The built-in `cd` with a path (lines 164-166): `chdir`, `perror` on
failure, and in both cases `getcwd` followed by `setenv("PWD", cwd, 1)`. -/
def changeDirectory (sys : Sys) (path : Str) (w : World) : World :=
  let w1 : World :=
    match sys.chdir w.cwd path with
    | some dir => { w with cwd := dir }
    | none => { w with err := w.err ++ ["cd".toList] }
  { w1 with env := setenv "PWD".toList w1.cwd w1.env }

/-- Lines 154-187 of `processCommand`: dispatch on `cleaned[0]`. -/
def dispatch (sys : Sys) (pc : Parsed) (w : World) : Outcome :=
  match pc.cleaned with
  | [] => .continues w
  | cmd :: args =>
    if cmd = "cd".toList then
      match args with
      | [] => .continues { w with out := w.out ++ w.cwd ++ ['\n'] }
      | path :: _ => .continues (changeDirectory sys path w)
    else if cmd = "dir".toList then
      match args with
      | [] => .continues (listDirectory sys ".".toList w)
      | path :: _ => .continues (listDirectory sys path w)
    else if cmd = "environ".toList then .continues (printEnvironment w)
    else if cmd = "set".toList then
      match args with
      | name :: value :: _ =>
        .continues { w with env := setenv (cstr name) (cstr value) w.env }
      | _ => .continues { w with out := w.out ++ "Usage: set VARIABLE VALUE\n".toList }
    else if cmd = "echo".toList then
      .continues { w with out := w.out ++ echoText args }
    else if cmd = "help".toList then .continues (help w)
    else if cmd = "pause".toList then .continues (pauseShell w)
    else if cmd = "quit".toList then .exited 0 w
    else
      .continues (executeExternal sys pc.cleaned pc.background pc.inputFile
        pc.outputFile pc.append w)

/-- The function `processCommand` (lines 129-188). -/
def processCommand (sys : Sys) (input : Str) (w : World) : Outcome :=
  let tokens := tokenize input
  if tokens.isEmpty then .continues w
  else
    match classify tokens with
    | none => .undefinedBehaviour w
    | some pc => dispatch sys pc w

/-! ### `main` (lines 192-212) -/

/-- The batch loop `while (getline(file, line)) processCommand(line);` followed
by `return 0;`. -/
def batchLoop (sys : Sys) : Nat → IStream → Str → World → Outcome
  | 0, _, _, w => .running w
  | fuel + 1, file, line, w =>
    let r := getline file line
    if r.2.failbit then .exited 0 w
    else
      match processCommand sys r.1 w with
      | .continues w' => batchLoop sys fuel r.2 r.1 w'
      | other => other

/-- The interactive loop `while (true) { displayPrompt(); getline(cin, input);
processCommand(input); }`. The result of `getline` is not looked at. -/
def interactiveLoop (sys : Sys) : Nat → Str → World → Outcome
  | 0, _, w => .running w
  | fuel + 1, input, w =>
    let w1 := displayPrompt w
    let r := getline w1.cin input
    match processCommand sys r.1 { w1 with cin := r.2 } with
    | .continues w' => interactiveLoop sys fuel r.1 w'
    | other => other

/-- The function `main`: `argv` holds the program name and the arguments; `fuel` bounds the
number of loop iterations observed. -/
def main (sys : Sys) (fuel : Nat) (argv : List Str) (w : World) : Outcome :=
  match argv with
  | _ :: path :: _ =>
    match sys.openFile path with
    | none => .exited 1 { w with out := w.out ++ "Batch file not found\n".toList }
    | some content =>
      batchLoop sys fuel { buf := content, eofbit := false, failbit := false } [] w
  | _ => interactiveLoop sys fuel [] w

/-! ### Vocabulary of the statements -/

/-- The lines `getline` delivers from a file: the pieces between newlines,
without a last empty piece. -/
def fileLines (content : List Char) : List Str :=
  let pieces := content.splitOnP (fun c => c == '\n')
  if pieces.getLast? = some [] then pieces.dropLast else pieces

/-- The line classifies without an out-of-bounds read. -/
def wellFormedLine (line : Str) : Bool :=
  wellFormed (stripBackground (tokenize line)).2

/-- The clean command name of the line is `quit`. -/
def isQuitLine (line : Str) : Bool :=
  match classify (tokenize line) with
  | some pc => pc.cleaned.head? == some "quit".toList
  | none => false

/-- Dispatch the lines one by one, in order, each returning to the caller:
the world after the last one. -/
def dispatchAll (sys : Sys) : List Str → World → Option World
  | [], w => some w
  | line :: lines, w =>
    match processCommand sys line w with
    | .continues w' => dispatchAll sys lines w'
    | _ => none

/-- The command names `processCommand` handles itself (lines 159-184). -/
def isBuiltin (cmd : Str) : Bool :=
  cmd == "cd".toList || cmd == "dir".toList || cmd == "environ".toList || cmd == "set".toList ||
  cmd == "echo".toList || cmd == "help".toList || cmd == "pause".toList || cmd == "quit".toList

/-- Dispatch the lines in order until one does not return to the caller; the
process ends with status 0 when all have returned. -/
def runLines (sys : Sys) : List Str → World → Outcome
  | [], w => .exited 0 w
  | line :: lines, w =>
    match processCommand sys line w with
    | .continues w' => runLines sys lines w'
    | other => other

/-- An operating system in which every call succeeds; used for concrete runs. -/
def sysAll : Sys :=
  { chdir := fun _ path => some path, readdir := fun _ _ => some [".".toList, "..".toList],
    fork := fun n => some (1000 + n), openFile := fun _ => some [] }

/-- An operating system whose only file holds three lines, the second being
`quit`; used for concrete runs. -/
def sysBatch : Sys :=
  { chdir := fun _ _ => none, readdir := fun _ _ => none, fork := fun _ => none,
    openFile := fun _ => some "echo a\nquit\necho b\n".toList }

/-- An operating system in which nothing succeeds; used for concrete runs. -/
def sysNone : Sys :=
  { chdir := fun _ _ => none, readdir := fun _ _ => none,
    fork := fun _ => none, openFile := fun _ => none }

/-- A fresh process in `/home` with the given environment and standard input. -/
def worldOf (env : List Str) (input : List Char) : World :=
  { cwd := "/home".toList, env := env, out := [], err := [],
    cin := { buf := input, eofbit := false, failbit := false }, spawned := [] }

/-! # Theorems

## Tokenizer -/

theorem filter_dropWhile_isspace (s : List Char) :
    (s.dropWhile isspace).filter (fun c => !isspace c) = s.filter (fun c => !isspace c) := by
  induction s with
  | nil => rfl
  | cons c cs ih =>
    by_cases h : isspace c = true
    · simp [List.dropWhile_cons, h, ih]
    · simp [List.dropWhile_cons, h]

theorem maximalRuns_nil : maximalRuns [] = [] := by
  simp [maximalRuns, List.splitOnP_nil]

theorem maximalRuns_cons_space (c : Char) (cs : List Char) (h : isspace c = true) :
    maximalRuns (c :: cs) = maximalRuns cs := by
  simp [maximalRuns, List.splitOnP_cons, h]

theorem maximalRuns_dropWhile (s : List Char) :
    maximalRuns (s.dropWhile isspace) = maximalRuns s := by
  induction s with
  | nil => rfl
  | cons c cs ih =>
    by_cases h : isspace c = true
    · simp [List.dropWhile_cons, h, ih, maximalRuns_cons_space]
    · simp [List.dropWhile_cons, h]

theorem maximalRuns_word (w rest : List Char) (hw : w ≠ [])
    (hns : ∀ c ∈ w, isspace c = false)
    (hrest : ∀ c, rest.head? = some c → isspace c = true) :
    maximalRuns (w ++ rest) = w :: maximalRuns rest := by
  have hns' : ∀ c ∈ w, ¬ isspace c = true := fun c hc => by simp [hns c hc]
  cases rest with
  | nil =>
    have hw' : w.isEmpty = false := by cases w <;> simp_all
    simp [maximalRuns, List.splitOnP_eq_single isspace w hns', List.splitOnP_nil, hw']
  | cons c cs =>
    have hc : isspace c = true := hrest c rfl
    have hw' : w.isEmpty = false := by cases w <;> simp_all
    rw [maximalRuns, List.splitOnP_first isspace w hns' c hc cs]
    simp [maximalRuns, List.splitOnP_cons, hc, hw']

/-- What a failed extraction means. -/
theorem extractWord_none (s : List Char) (h : extractWord s = none) :
    maximalRuns s = [] ∧ s.filter (fun c => !isspace c) = [] := by
  unfold extractWord at h
  simp only [] at h
  split at h
  · rename_i hemp
    have hnil : (s.dropWhile isspace).takeWhile (fun c => !isspace c) = [] := by
      simpa using hemp
    have hr : s.dropWhile isspace = [] := by
      cases hd : s.dropWhile isspace with
      | nil => rfl
      | cons c cs =>
        have hc := List.head_dropWhile_not isspace s (by simp [hd])
        simp only [hd, List.head_cons] at hc
        rw [hd] at hnil
        simp [List.takeWhile_cons, hc] at hnil
    constructor
    · rw [← maximalRuns_dropWhile, hr, maximalRuns_nil]
    · rw [← filter_dropWhile_isspace, hr]; rfl
  · cases h

/-- What a successful extraction delivers. -/
theorem extractWord_some (s w s' : List Char) (h : extractWord s = some (w, s')) :
    w ≠ [] ∧ (∀ c ∈ w, isspace c = false) ∧ s'.length < s.length ∧
    maximalRuns s = w :: maximalRuns s' ∧
    s.filter (fun c => !isspace c) = w ++ s'.filter (fun c => !isspace c) := by
  unfold extractWord at h
  simp only [] at h
  split at h
  · cases h
  · rename_i hemp
    simp only [Option.some.injEq, Prod.mk.injEq] at h
    obtain ⟨hw, hs'⟩ := h
    have hne : w ≠ [] := by
      intro h0; apply hemp; rw [hw, h0]; rfl
    have hns : ∀ c ∈ w, isspace c = false := by
      intro c hc
      rw [← hw] at hc
      have := List.mem_takeWhile_imp hc
      simpa using this
    have hsplit : s.dropWhile isspace = w ++ s' := by
      rw [← hw, ← hs']; exact (List.takeWhile_append_dropWhile _ _).symm
    have hrest : ∀ c, s'.head? = some c → isspace c = true := by
      intro c hc
      cases hd : s' with
      | nil => rw [hd] at hc; cases hc
      | cons d ds =>
        rw [hd] at hc
        simp only [List.head?_cons, Option.some.injEq] at hc
        have hne' : (s.dropWhile isspace).dropWhile (fun c => !isspace c) ≠ [] := by
          rw [hs', hd]; simp
        have := List.head_dropWhile_not (fun c => !isspace c) (s.dropWhile isspace) hne'
        simp only [hs', hd, List.head_cons] at this
        rw [← hc]; simpa using this
    have hlen : s'.length < s.length := by
      have h1 : (s.dropWhile isspace).length ≤ s.length :=
        (List.dropWhile_sublist isspace).length_le
      have h2 : 0 < w.length := List.length_pos.mpr hne
      rw [hsplit, List.length_append] at h1
      omega
    refine ⟨hne, hns, hlen, ?_, ?_⟩
    · rw [← maximalRuns_dropWhile, hsplit]
      exact maximalRuns_word w s' hne hns hrest
    · rw [← filter_dropWhile_isspace, hsplit, List.filter_append]
      congr 1
      rw [List.filter_eq_self]
      intro c hc; simp [hns c hc]

/-- With enough fuel the loop appends the maximal runs of what is unread;
the runs are non-empty, free of whitespace, and concatenate to the unread
text without its whitespace. -/
theorem tokenizeLoop_fuel (fuel : Nat) : ∀ (s : List Char) (acc : List Str),
    s.length < fuel →
    tokenizeLoop fuel s acc = acc ++ maximalRuns s ∧
    (∀ t ∈ maximalRuns s, t ≠ [] ∧ ∀ c ∈ t, isspace c = false) ∧
    (maximalRuns s).flatten = s.filter (fun c => !isspace c) := by
  induction fuel with
  | zero => intro s acc h; omega
  | succ n ih =>
    intro s acc hlen
    unfold tokenizeLoop
    cases hx : extractWord s with
    | none =>
      obtain ⟨h1, h2⟩ := extractWord_none s hx
      simp [h1, h2]
    | some p =>
      obtain ⟨w, s'⟩ := p
      obtain ⟨hne, hns, hl, hruns, hfilt⟩ := extractWord_some s w s' hx
      obtain ⟨i1, i2, i3⟩ := ih s' (acc ++ [w]) (by omega)
      refine ⟨?_, ?_, ?_⟩
      · simp only [i1, hruns]; simp
      · intro t ht
        rw [hruns] at ht
        rcases List.mem_cons.mp ht with rfl | ht
        · exact ⟨hne, hns⟩
        · exact i2 t ht
      · rw [hruns, List.flatten_cons, i3, hfilt]

theorem tokenize_eq_maximalRuns (line : Str) : tokenize line = maximalRuns line := by
  have := (tokenizeLoop_fuel (line.length + 1) line [] (by omega)).1
  simpa [tokenize] using this

/-! ## Classifier: the scan against its position-wise description -/

theorem range_filter_succ (n : Nat) (p : Nat → Bool) :
    (List.range (n + 1)).filter p =
      (if p 0 then [0] else []) ++ ((List.range n).filter (fun i => p (i + 1))).map (· + 1) := by
  rw [List.range_succ_eq_map, List.filter_cons, List.filter_map]
  by_cases h : p 0 = true <;> simp [h, Function.comp_def]

theorem reached_succ_of_arg (t : Str) (rest : List Str) (ht : isRedirOp t = false) :
    ∀ i, reached (t :: rest) (i + 1) = reached rest i := by
  intro i
  induction i with
  | zero => simp [reached, ht]
  | succ k ih =>
    rw [reached, ih, List.getD_cons_succ]
    rfl

theorem reached_one_of_op (t : Str) (rest : List Str) (ht : isRedirOp t = true) :
    reached (t :: rest) 1 = false := by
  simp [reached, ht]

theorem reached_succ_succ_of_op (t target : Str) (rest : List Str) (ht : isRedirOp t = true) :
    ∀ i, reached (t :: target :: rest) (i + 2) = reached rest i := by
  intro i
  induction i with
  | zero => simp [reached, ht]
  | succ k ih =>
    rw [reached, ih, List.getD_cons_succ, List.getD_cons_succ]
    rfl

theorem isOperatorAt_zero (t : Str) (rest : List Str) :
    isOperatorAt (t :: rest) 0 = isRedirOp t := by
  simp [isOperatorAt, reached]

theorem isOperatorAt_succ_of_arg (t : Str) (rest : List Str) (ht : isRedirOp t = false) (i : Nat) :
    isOperatorAt (t :: rest) (i + 1) = isOperatorAt rest i := by
  simp [isOperatorAt, reached_succ_of_arg t rest ht]

theorem isOperatorAt_one_of_op (t : Str) (rest : List Str) (ht : isRedirOp t = true) :
    isOperatorAt (t :: rest) 1 = false := by
  simp [isOperatorAt, reached_one_of_op t rest ht]

theorem isOperatorAt_succ_succ_of_op (t target : Str) (rest : List Str)
    (ht : isRedirOp t = true) (i : Nat) :
    isOperatorAt (t :: target :: rest) (i + 2) = isOperatorAt rest i := by
  simp [isOperatorAt, reached_succ_succ_of_op t target rest ht]

theorem isArgumentAt_eq (tokens : List Str) (i : Nat) :
    isArgumentAt tokens i = (reached tokens i && !isRedirOp (tokens.getD i [])) := by
  unfold isArgumentAt isOperatorAt isTargetAt
  cases reached tokens i <;> cases isRedirOp (tokens.getD i []) <;> rfl

theorem argumentTokens_nil : argumentTokens [] = [] := rfl

theorem argumentTokens_cons_arg (t : Str) (rest : List Str) (ht : isRedirOp t = false) :
    argumentTokens (t :: rest) = t :: argumentTokens rest := by
  unfold argumentTokens
  rw [List.length_cons, range_filter_succ]
  have h0 : isArgumentAt (t :: rest) 0 = true := by
    simp [isArgumentAt_eq, reached, ht]
  have hs : (fun i => isArgumentAt (t :: rest) (i + 1)) = isArgumentAt rest := by
    funext i
    simp [isArgumentAt_eq, reached_succ_of_arg t rest ht]
  rw [h0, hs]
  simp [List.map_map, Function.comp_def]

theorem argumentTokens_single_op (t : Str) (ht : isRedirOp t = true) :
    argumentTokens [t] = [] := by
  simp [argumentTokens, isArgumentAt_eq, reached, ht, List.range_succ]

theorem argumentTokens_cons_op (t target : Str) (rest : List Str) (ht : isRedirOp t = true) :
    argumentTokens (t :: target :: rest) = argumentTokens rest := by
  unfold argumentTokens
  rw [List.length_cons, List.length_cons, range_filter_succ, range_filter_succ]
  have h0 : isArgumentAt (t :: target :: rest) 0 = false := by
    simp [isArgumentAt_eq, reached, ht]
  have h1 : isArgumentAt (t :: target :: rest) (0 + 1) = false := by
    simp [isArgumentAt_eq, reached, ht]
  have hs : (fun i => isArgumentAt (t :: target :: rest) (i + 1 + 1)) = isArgumentAt rest := by
    funext i
    simp [isArgumentAt_eq, reached_succ_succ_of_op t target rest ht]
  rw [h0, h1, hs]
  simp [List.map_map, Function.comp_def]

theorem wellFormed_cons_arg (t : Str) (rest : List Str) (ht : isRedirOp t = false) :
    wellFormed (t :: rest) = wellFormed rest := by
  unfold wellFormed
  rw [List.length_cons, List.range_succ_eq_map, List.all_cons, List.all_map]
  simp [isOperatorAt_zero, ht, Function.comp_def, isOperatorAt_succ_of_arg t rest ht]

theorem wellFormed_single_op (t : Str) (ht : isRedirOp t = true) :
    wellFormed [t] = false := by
  simp [wellFormed, List.range_succ, isOperatorAt_zero, ht]

theorem wellFormed_cons_op (t target : Str) (rest : List Str) (ht : isRedirOp t = true) :
    wellFormed (t :: target :: rest) = wellFormed rest := by
  unfold wellFormed
  rw [List.length_cons, List.length_cons, List.range_succ_eq_map, List.all_cons, List.all_map,
    List.range_succ_eq_map, List.all_cons, List.all_map]
  simp [isOperatorAt_zero, ht, Function.comp_def, isOperatorAt_one_of_op t _ ht,
    isOperatorAt_succ_succ_of_op t target rest ht]

theorem lastOperator_nil (p : Str → Bool) : lastOperator p [] = none := rfl

theorem lastOperator_cons_arg (p : Str → Bool) (t : Str) (rest : List Str)
    (ht : isRedirOp t = false) :
    lastOperator p (t :: rest) = (lastOperator p rest).map (· + 1) := by
  unfold lastOperator
  rw [List.length_cons, range_filter_succ]
  have h0 : (isOperatorAt (t :: rest) 0 && p ((t :: rest).getD 0 [])) = false := by
    simp [isOperatorAt_zero, ht]
  have hs : (fun i => isOperatorAt (t :: rest) (i + 1) && p ((t :: rest).getD (i + 1) [])) =
      (fun i => isOperatorAt rest i && p (rest.getD i [])) := by
    funext i
    simp [isOperatorAt_succ_of_arg t rest ht]
  rw [h0, hs]
  simp [List.getLast?_map]

theorem lastOperator_cons_op (p : Str → Bool) (t target : Str) (rest : List Str)
    (ht : isRedirOp t = true) :
    lastOperator p (t :: target :: rest) =
      ((lastOperator p rest).map (· + 2)).or (if p t then some 0 else none) := by
  unfold lastOperator
  rw [List.length_cons, List.length_cons, range_filter_succ, range_filter_succ]
  have h1 : (isOperatorAt (t :: target :: rest) (0 + 1) &&
      p ((t :: target :: rest).getD (0 + 1) [])) = false := by
    simp [isOperatorAt_one_of_op t _ ht]
  have hs : (fun i => isOperatorAt (t :: target :: rest) (i + 1 + 1) &&
        p ((t :: target :: rest).getD (i + 1 + 1) [])) =
      (fun i => isOperatorAt rest i && p (rest.getD i [])) := by
    funext i
    simp [isOperatorAt_succ_succ_of_op t target rest ht]
  rw [h1, hs]
  simp only [isOperatorAt_zero, ht, Bool.true_and, List.getD_cons_zero, Bool.false_eq_true,
    if_false, List.nil_append, List.map_map, List.getLast?_append, List.getLast?_map]
  by_cases hp : p t = true <;> simp [hp, Function.comp_def]


theorem targetOfLast_nil (p : Str → Bool) (d : Str) : targetOfLast p [] d = d := rfl

theorem appendOfLast_nil (d : Bool) : appendOfLast [] d = d := rfl

theorem targetOfLast_cons_arg (p : Str → Bool) (t : Str) (rest : List Str) (d : Str)
    (ht : isRedirOp t = false) :
    targetOfLast p (t :: rest) d = targetOfLast p rest d := by
  unfold targetOfLast
  rw [lastOperator_cons_arg p t rest ht]
  cases lastOperator p rest <;> simp

theorem targetOfLast_cons_op (p : Str → Bool) (t target : Str) (rest : List Str) (d : Str)
    (ht : isRedirOp t = true) :
    targetOfLast p (t :: target :: rest) d =
      targetOfLast p rest (if p t then target else d) := by
  unfold targetOfLast
  rw [lastOperator_cons_op p t target rest ht]
  cases lastOperator p rest with
  | some i => simp
  | none => by_cases hp : p t = true <;> simp [hp]

theorem appendOfLast_cons_arg (t : Str) (rest : List Str) (d : Bool)
    (ht : isRedirOp t = false) :
    appendOfLast (t :: rest) d = appendOfLast rest d := by
  unfold appendOfLast
  rw [lastOperator_cons_arg isOutputOp t rest ht]
  cases lastOperator isOutputOp rest <;> simp

theorem appendOfLast_cons_op (t target : Str) (rest : List Str) (d : Bool)
    (ht : isRedirOp t = true) :
    appendOfLast (t :: target :: rest) d =
      appendOfLast rest (if isOutputOp t then t == ">>".toList else d) := by
  unfold appendOfLast
  rw [lastOperator_cons_op isOutputOp t target rest ht]
  cases lastOperator isOutputOp rest with
  | some i => simp
  | none => by_cases hp : isOutputOp t = true <;> simp [hp]

theorem scan_eq_aux (n : Nat) : ∀ (tokens : List Str) (pc : Parsed), tokens.length ≤ n →
    scan tokens pc = if wellFormed tokens then some (scanResult tokens pc) else none := by
  induction n with
  | zero =>
    intro tokens pc h
    have : tokens = [] := List.length_eq_zero.mp (by omega)
    subst this
    simp [scan, wellFormed, scanResult, argumentTokens_nil, targetOfLast_nil, appendOfLast_nil]
  | succ n ih =>
    intro tokens pc hlen
    cases tokens with
    | nil =>
      simp [scan, wellFormed, scanResult, argumentTokens_nil, targetOfLast_nil, appendOfLast_nil]
    | cons t rest =>
      by_cases h1 : t = "<".toList
      · subst h1
        have hop : isRedirOp "<".toList = true := by decide
        cases rest with
        | nil => rw [wellFormed_single_op _ hop]; rfl
        | cons target rest' =>
          have hl : rest'.length ≤ n := by simp at hlen; omega
          rw [scan, if_pos rfl, ih rest' _ hl, wellFormed_cons_op _ _ _ hop]
          simp only [scanResult, argumentTokens_cons_op _ _ _ hop,
            targetOfLast_cons_op _ _ _ _ _ hop, appendOfLast_cons_op _ _ _ _ hop]
          rfl
      · by_cases h2 : t = ">".toList
        · subst h2
          have hop : isRedirOp ">".toList = true := by decide
          cases rest with
          | nil => rw [wellFormed_single_op _ hop]; rfl
          | cons target rest' =>
            have hl : rest'.length ≤ n := by simp at hlen; omega
            rw [scan, if_neg (by decide), if_pos rfl, ih rest' _ hl, wellFormed_cons_op _ _ _ hop]
            simp only [scanResult, argumentTokens_cons_op _ _ _ hop,
              targetOfLast_cons_op _ _ _ _ _ hop, appendOfLast_cons_op _ _ _ _ hop]
            rfl
        · by_cases h3 : t = ">>".toList
          · subst h3
            have hop : isRedirOp ">>".toList = true := by decide
            cases rest with
            | nil => rw [wellFormed_single_op _ hop]; rfl
            | cons target rest' =>
              have hl : rest'.length ≤ n := by simp at hlen; omega
              rw [scan, if_neg (by decide), if_neg (by decide), if_pos rfl, ih rest' _ hl,
                wellFormed_cons_op _ _ _ hop]
              simp only [scanResult, argumentTokens_cons_op _ _ _ hop,
                targetOfLast_cons_op _ _ _ _ _ hop, appendOfLast_cons_op _ _ _ _ hop]
              rfl
          · have hop : isRedirOp t = false := by
              simp only [isRedirOp, Bool.or_eq_false_iff, beq_eq_false_iff_ne, ne_eq]
              exact ⟨⟨h1, h2⟩, h3⟩
            have hl : rest.length ≤ n := by simp at hlen; omega
            rw [scan.eq_def]
            simp only [if_neg h1, if_neg h2, if_neg h3]
            rw [ih rest _ hl, wellFormed_cons_arg _ _ hop]
            simp only [scanResult, argumentTokens_cons_arg _ _ hop,
              targetOfLast_cons_arg _ _ _ _ hop, appendOfLast_cons_arg _ _ _ hop]
            simp

/-- The scan succeeds exactly on well-formed token sequences, and then gives
the position-wise description. -/
theorem scan_eq (tokens : List Str) (pc : Parsed) :
    scan tokens pc = if wellFormed tokens then some (scanResult tokens pc) else none :=
  scan_eq_aux tokens.length tokens pc (Nat.le_refl _)

/-! ## Claims about the tokenizer and the classifier -/

/-- A successful extraction splits the unread text into skipped whitespace,
the word, and a remainder that is empty or starts with whitespace. -/
theorem extractWord_some_split (s w s' : List Char) (h : extractWord s = some (w, s')) :
    ∃ ws, s = ws ++ w ++ s' ∧ (∀ c ∈ ws, isspace c = true) ∧
      (∀ c, s'.head? = some c → isspace c = true) := by
  unfold extractWord at h
  simp only [] at h
  split at h
  · cases h
  · simp only [Option.some.injEq, Prod.mk.injEq] at h
    obtain ⟨hw, hs'⟩ := h
    refine ⟨s.takeWhile isspace, ?_, ?_, ?_⟩
    · rw [List.append_assoc, ← hw, ← hs', List.takeWhile_append_dropWhile,
        List.takeWhile_append_dropWhile]
    · intro c hc
      exact List.mem_takeWhile_imp hc
    · intro c hc
      cases hd : s' with
      | nil => rw [hd] at hc; cases hc
      | cons d ds =>
        rw [hd] at hc
        simp only [List.head?_cons, Option.some.injEq] at hc
        have hne' : (s.dropWhile isspace).dropWhile (fun c => !isspace c) ≠ [] := by
          rw [hs', hd]; simp
        have := List.head_dropWhile_not (fun c => !isspace c) (s.dropWhile isspace) hne'
        simp only [hs', hd, List.head_cons] at this
        rw [← hc]; simpa using this

/-- Every maximal run sits in the text between whitespace or the ends. -/
theorem maximalRuns_delimited (n : Nat) : ∀ s : List Char, s.length ≤ n →
    ∀ t ∈ maximalRuns s, ∃ pre post, s = pre ++ t ++ post ∧
      (∀ c, pre.getLast? = some c → isspace c = true) ∧
      (∀ c, post.head? = some c → isspace c = true) := by
  induction n with
  | zero =>
    intro s hs t ht
    have : s = [] := List.length_eq_zero.mp (by omega)
    subst this
    rw [maximalRuns_nil] at ht
    cases ht
  | succ n ih =>
    intro s hs t ht
    cases hx : extractWord s with
    | none =>
      rw [(extractWord_none s hx).1] at ht
      cases ht
    | some p =>
      obtain ⟨w, s'⟩ := p
      obtain ⟨hne, hns, hl, hruns, _⟩ := extractWord_some s w s' hx
      obtain ⟨ws, hsplit, hws, hrest⟩ := extractWord_some_split s w s' hx
      rw [hruns] at ht
      rcases List.mem_cons.mp ht with rfl | ht
      · refine ⟨ws, s', hsplit, ?_, hrest⟩
        intro c hc
        exact hws c (List.mem_of_getLast?_eq_some hc)
      · obtain ⟨pre, post, hs', hpre, hpost⟩ := ih s' (by omega) t ht
        have htne : t ≠ [] :=
          ((tokenizeLoop_fuel (s'.length + 1) s' [] (by omega)).2.1 t ht).1
        have htns : ∀ c ∈ t, isspace c = false :=
          ((tokenizeLoop_fuel (s'.length + 1) s' [] (by omega)).2.1 t ht).2
        refine ⟨ws ++ w ++ pre, post, by rw [hsplit, hs']; simp, ?_, hpost⟩
        intro c hc
        cases hp : pre with
        | nil =>
          exfalso
          rw [hp, List.nil_append] at hs'
          cases ht' : t with
          | nil => exact htne ht'
          | cons d ds =>
            have hd : isspace d = true := hrest d (by rw [hs', ht']; rfl)
            have hd' : isspace d = false := htns d (by rw [ht']; exact List.mem_cons_self _ _)
            rw [hd] at hd'
            cases hd'
        | cons a as =>
          rw [hp, List.getLast?_append] at hc
          have hlast : (a :: as).getLast? = some c := by
            cases hl2 : (a :: as).getLast? with
            | none => simp at hl2
            | some x => rw [hl2] at hc; simpa using hc
          exact hpre c (by rw [hp]; exact hlast)

theorem flatten_eq_nil_of_ne_nil (ts : List Str) (hne : ∀ t ∈ ts, t ≠ [])
    (hflat : ts.flatten = []) : ts = [] := by
  cases ts with
  | nil => rfl
  | cons t rest =>
    exfalso
    have : t = [] := by
      have h := hflat
      rw [List.flatten_cons, List.append_eq_nil] at h
      exact h.1
    exact hne t (List.mem_cons_self _ _) this

/-- C1: `tokenize` returns exactly the maximal runs of non-whitespace
characters of the line, in order: no token is empty or contains whitespace,
every token sits in the line between whitespace or the ends of the line, the
tokens concatenate to the line without its whitespace, a line of whitespace
only (or an empty one) gives no token, and `"a  b\tc"` gives
`["a","b","c"]`. -/
theorem tokenize_maximal_runs (line : Str) :
    tokenize line = maximalRuns line ∧
    (∀ t ∈ tokenize line, t ≠ [] ∧ ∀ c ∈ t, isspace c = false) ∧
    (∀ t ∈ tokenize line, ∃ pre post, line = pre ++ t ++ post ∧
      (∀ c, pre.getLast? = some c → isspace c = true) ∧
      (∀ c, post.head? = some c → isspace c = true)) ∧
    (tokenize line).flatten = line.filter (fun c => !isspace c) ∧
    ((∀ c ∈ line, isspace c = true) → tokenize line = []) ∧
    tokenize [] = [] ∧
    tokenize "a  b\tc".toList = ["a".toList, "b".toList, "c".toList] := by
  obtain ⟨_, h2, h3⟩ := tokenizeLoop_fuel (line.length + 1) line [] (by omega)
  have heq := tokenize_eq_maximalRuns line
  refine ⟨heq, ?_, ?_, ?_, ?_, by decide, by decide⟩
  · rw [heq]; exact h2
  · rw [heq]; exact maximalRuns_delimited line.length line (Nat.le_refl _)
  · rw [heq]; exact h3
  · intro hall
    rw [heq]
    apply flatten_eq_nil_of_ne_nil _ (fun t ht => (h2 t ht).1)
    rw [h3, List.filter_eq_nil_iff]
    intro c hc
    simp [hall c hc]

/-- C1 at `" \t "` (whitespace only) and at `"a  b\tc"`. -/
theorem tokenize_maximal_runs_witness :
    tokenize " \t ".toList = [] ∧
    ("b".toList ≠ [] ∧ ∀ c ∈ "b".toList, isspace c = false) :=
  ⟨(tokenize_maximal_runs " \t ".toList).2.2.2.2.1 (by decide),
   (tokenize_maximal_runs "a  b\tc".toList).2.1 "b".toList (by decide)⟩

theorem argumentTokens_not_op (tokens : List Str) :
    ∀ a ∈ argumentTokens tokens, isRedirOp a = false := by
  intro a ha
  unfold argumentTokens at ha
  obtain ⟨i, hi, rfl⟩ := List.mem_map.mp ha
  have := (List.mem_filter.mp hi).2
  rw [isArgumentAt_eq] at this
  simp only [Bool.and_eq_true, Bool.not_eq_true'] at this
  exact this.2

theorem argumentTokens_sublist_aux (n : Nat) : ∀ tokens : List Str, tokens.length ≤ n →
    (argumentTokens tokens).Sublist tokens := by
  induction n with
  | zero =>
    intro tokens h
    have : tokens = [] := List.length_eq_zero.mp (by omega)
    subst this
    exact List.Sublist.slnil
  | succ n ih =>
    intro tokens hlen
    cases tokens with
    | nil => exact List.Sublist.slnil
    | cons t rest =>
      cases hop : isRedirOp t with
      | false =>
        rw [argumentTokens_cons_arg t rest hop]
        exact (ih rest (by simp at hlen; omega)).cons₂ t
      | true =>
        cases rest with
        | nil => rw [argumentTokens_single_op t hop]; exact List.nil_sublist _
        | cons target rest' =>
          rw [argumentTokens_cons_op t target rest' hop]
          exact ((ih rest' (by simp at hlen; omega)).cons target).cons t

theorem scan_append_args (args rest : List Str) (pc : Parsed)
    (hargs : ∀ a ∈ args, isRedirOp a = false) :
    scan (args ++ rest) pc = scan rest { pc with cleaned := pc.cleaned ++ args } := by
  induction args generalizing pc with
  | nil => simp
  | cons a as ih =>
    have ha : isRedirOp a = false := hargs a (List.mem_cons_self _ _)
    simp only [isRedirOp, Bool.or_eq_false_iff, beq_eq_false_iff_ne, ne_eq] at ha
    rw [List.cons_append, scan.eq_def]
    simp only [if_neg ha.1.1, if_neg ha.1.2, if_neg ha.2]
    rw [ih _ (fun b hb => hargs b (List.mem_cons_of_mem _ hb))]
    simp

theorem classify_eq (tokens : List Str) :
    classify tokens =
      if wellFormed (stripBackground tokens).2 then
        some (scanResult (stripBackground tokens).2 (initialParsed (stripBackground tokens).1))
      else none := by
  rw [classify, scan_eq]

/-- C2: when every operator the scan acts upon has a following token, the
clean argument list is exactly the scanned tokens at positions that are
neither such an operator nor the position right after one, in their original
order; no clean argument is `<`, `>` or `>>`, and neither an operator position
nor its target position contributes an argument. In particular, for
operator-free `args` and a target `f` other than `&`, classifying
`args ++ [">", f]` gives clean arguments `args`, output path `f`,
append=false, background=false and no input path. -/
theorem classify_clean_arguments :
    (∀ tokens : List Str, wellFormed (stripBackground tokens).2 = true →
      ∃ pc, classify tokens = some pc ∧
        pc.cleaned = argumentTokens (stripBackground tokens).2 ∧
        pc.cleaned.Sublist (stripBackground tokens).2 ∧
        (∀ a ∈ pc.cleaned, isRedirOp a = false) ∧
        (∀ i, isOperatorAt (stripBackground tokens).2 i = true →
          isArgumentAt (stripBackground tokens).2 i = false ∧
          isArgumentAt (stripBackground tokens).2 (i + 1) = false)) ∧
    (∀ (args : List Str) (f : Str), (∀ a ∈ args, isRedirOp a = false) → f ≠ "&".toList →
      classify (args ++ [">".toList, f]) =
        some { cleaned := args, background := false, inputFile := [],
               outputFile := f, append := false }) := by
  constructor
  · intro tokens hwf
    refine ⟨_, by rw [classify_eq, if_pos hwf], ?_, ?_, ?_, ?_⟩
    · simp [scanResult, initialParsed]
    · simp only [scanResult, initialParsed, List.nil_append]
      exact argumentTokens_sublist_aux _ _ (Nat.le_refl _)
    · simp only [scanResult, initialParsed, List.nil_append]
      exact argumentTokens_not_op _
    · intro i hi
      constructor
      · simp [isArgumentAt, hi]
      · have hr : reached (stripBackground tokens).2 (i + 1) = false := by
          rw [reached]
          unfold isOperatorAt at hi
          rw [hi]
          rfl
        simp [isArgumentAt, isTargetAt, hr]
  · intro args f hargs hf
    have hlast : (args ++ [">".toList, f]).getLast? = some f := by
      have : args ++ [">".toList, f] = (args ++ [">".toList]) ++ [f] := by simp
      rw [this, List.getLast?_concat]
    have hstrip : stripBackground (args ++ [">".toList, f]) = (false, args ++ [">".toList, f]) := by
      unfold stripBackground
      rw [hlast, if_neg]
      intro h
      exact hf (Option.some.inj h)
    rw [classify, hstrip, scan_append_args _ _ _ hargs]
    rfl

/-- C2 at `["echo","hi",">","out.txt"]`. -/
theorem classify_clean_arguments_witness :
    (∃ pc, classify ["echo".toList, "hi".toList, ">".toList, "out.txt".toList] = some pc ∧
      pc.cleaned = ["echo".toList, "hi".toList]) ∧
    classify (["echo".toList, "hi".toList] ++ [">".toList, "out.txt".toList]) =
      some { cleaned := ["echo".toList, "hi".toList], background := false, inputFile := [],
             outputFile := "out.txt".toList, append := false } := by
  refine ⟨?_, classify_clean_arguments.2 ["echo".toList, "hi".toList] "out.txt".toList
    (by decide) (by decide)⟩
  obtain ⟨pc, h1, h2, _⟩ := classify_clean_arguments.1
    ["echo".toList, "hi".toList, ">".toList, "out.txt".toList] (by decide)
  exact ⟨pc, h1, by rw [h2]; decide⟩

theorem stripBackground_fst (tokens : List Str) :
    (stripBackground tokens).1 = true ↔ tokens.getLast? = some "&".toList := by
  unfold stripBackground
  split <;> simp_all

theorem classify_background (tokens : List Str) (pc : Parsed)
    (h : classify tokens = some pc) : pc.background = (stripBackground tokens).1 := by
  rw [classify_eq] at h
  split at h
  · cases h; rfl
  · cases h

theorem mem_argumentTokens (tokens : List Str) (i : Nat) (hi : i < tokens.length)
    (harg : isArgumentAt tokens i = true) : tokens.getD i [] ∈ argumentTokens tokens := by
  unfold argumentTokens
  exact List.mem_map.mpr ⟨i, List.mem_filter.mpr ⟨List.mem_range.mpr hi, harg⟩, rfl⟩

/-- C3 (amended): the background flag is set if and only if the last token is
exactly `&`; then exactly that one trailing token is dropped before the scan,
otherwise the tokens are scanned as they are. A `&` anywhere else is never an
operator or a marker: the scan treats it like any other word, so it is kept as
an argument unless it stands right after an operator the scan acts upon, where
it is consumed as that operator's target. -/
theorem background_marker (tokens : List Str) :
    ((stripBackground tokens).1 = true ↔ tokens.getLast? = some "&".toList) ∧
    (tokens.getLast? = some "&".toList →
      (stripBackground tokens).2 = tokens.dropLast ∧
      (stripBackground tokens).2 ++ ["&".toList] = tokens) ∧
    (tokens.getLast? ≠ some "&".toList → (stripBackground tokens).2 = tokens) ∧
    (∀ pc, classify tokens = some pc →
      (pc.background = true ↔ tokens.getLast? = some "&".toList)) ∧
    (∀ i, (stripBackground tokens).2.getD i [] = "&".toList →
      isOperatorAt (stripBackground tokens).2 i = false ∧
      isArgumentAt (stripBackground tokens).2 i = !isTargetAt (stripBackground tokens).2 i) ∧
    (∀ pc i, classify tokens = some pc → i < (stripBackground tokens).2.length →
      (stripBackground tokens).2.getD i [] = "&".toList →
      isTargetAt (stripBackground tokens).2 i = false → "&".toList ∈ pc.cleaned) := by
  refine ⟨stripBackground_fst tokens, ?_, ?_, ?_, ?_, ?_⟩
  · intro h
    have h2 : (stripBackground tokens).2 = tokens.dropLast := by
      unfold stripBackground; rw [if_pos h]
    exact ⟨h2, by rw [h2]; exact List.dropLast_append_getLast? _ (by rw [h]; rfl)⟩
  · intro h
    unfold stripBackground; rw [if_neg h]
  · intro pc hpc
    rw [classify_background tokens pc hpc]
    exact stripBackground_fst tokens
  · intro i hi
    have hop : isRedirOp ((stripBackground tokens).2.getD i []) = false := by
      rw [hi]; decide
    constructor
    · unfold isOperatorAt; rw [hop, Bool.and_false]
    · rw [isArgumentAt_eq, hop]; simp [isTargetAt]
  · intro pc i hpc hlen hi htarget
    have hop : isRedirOp ((stripBackground tokens).2.getD i []) = false := by
      rw [hi]; decide
    have harg : isArgumentAt (stripBackground tokens).2 i = true := by
      rw [isArgumentAt_eq, hop]
      unfold isTargetAt at htarget
      simpa using htarget
    have hmem := mem_argumentTokens _ i hlen harg
    rw [hi] at hmem
    rw [classify_eq] at hpc
    split at hpc
    · cases hpc
      simpa [scanResult, initialParsed] using hmem
    · cases hpc

/-- C3 at `["sleep","1","&"]` (flag set, one token dropped) and at
`["echo","&","x"]` (an inner `&` kept as an argument). -/
theorem background_marker_witness :
    ((stripBackground ["sleep".toList, "1".toList, "&".toList]).1 = true ∧
     (stripBackground ["sleep".toList, "1".toList, "&".toList]).2 =
        ["sleep".toList, "1".toList]) ∧
    classify ["sleep".toList, "1".toList, "&".toList] =
      some { cleaned := ["sleep".toList, "1".toList], background := true, inputFile := [],
             outputFile := [], append := false } ∧
    "&".toList ∈ ["echo".toList, "&".toList, "x".toList] :=
  ⟨⟨(background_marker ["sleep".toList, "1".toList, "&".toList]).1.mpr (by decide),
    ((background_marker ["sleep".toList, "1".toList, "&".toList]).2.1 (by decide)).1⟩,
   by decide,
   (background_marker ["echo".toList, "&".toList, "x".toList]).2.2.2.2.2
     { cleaned := ["echo".toList, "&".toList, "x".toList], background := false, inputFile := [],
       outputFile := [], append := false } 1 (by decide) (by decide) (by decide) (by decide)⟩

/-- C3 as stated fails at `["ls",">","&","x"]`: the `&` is not last, yet it is
not kept as an argument; it becomes the output path. -/
theorem background_marker_counterexample :
    classify ["ls".toList, ">".toList, "&".toList, "x".toList] =
      some { cleaned := ["ls".toList, "x".toList], background := false, inputFile := [],
             outputFile := "&".toList, append := false } ∧
    "&".toList ∉ ["ls".toList, "x".toList] := by
  decide

theorem dispatch_quit (sys : Sys) (pc : Parsed) (w : World)
    (h : pc.cleaned.head? = some "quit".toList) : dispatch sys pc w = .exited 0 w := by
  unfold dispatch
  cases hc : pc.cleaned with
  | nil => rw [hc] at h; cases h
  | cons cmd args =>
    rw [hc] at h
    simp only [List.head?_cons, Option.some.injEq] at h
    subst h
    rfl

theorem dispatch_continues (sys : Sys) (pc : Parsed) (w : World)
    (h : pc.cleaned.head? ≠ some "quit".toList) : ∃ w', dispatch sys pc w = .continues w' := by
  unfold dispatch
  cases hc : pc.cleaned with
  | nil => exact ⟨_, rfl⟩
  | cons cmd args =>
    rw [hc] at h
    simp only [List.head?_cons, ne_eq, Option.some.injEq] at h
    simp only []
    repeat' split
    all_goals exact ⟨_, rfl⟩

theorem dispatch_external (sys : Sys) (pc : Parsed) (w : World) (cmd : Str) (args : List Str)
    (hc : pc.cleaned = cmd :: args) (hb : isBuiltin cmd = false) :
    dispatch sys pc w = .continues (executeExternal sys pc.cleaned pc.background pc.inputFile
      pc.outputFile pc.append w) := by
  simp only [isBuiltin, Bool.or_eq_false_iff, beq_eq_false_iff_ne, ne_eq] at hb
  obtain ⟨⟨⟨⟨⟨⟨⟨h1, h2⟩, h3⟩, h4⟩, h5⟩, h6⟩, h7⟩, h8⟩ := hb
  unfold dispatch
  rw [hc]
  simp only []
  rw [if_neg h1, if_neg h2, if_neg h3, if_neg h4, if_neg h5, if_neg h6, if_neg h7, if_neg h8]

theorem processCommand_nonempty (sys : Sys) (line : Str) (w : World)
    (h : tokenize line ≠ []) :
    processCommand sys line w =
      match classify (tokenize line) with
      | none => .undefinedBehaviour w
      | some pc => dispatch sys pc w := by
  unfold processCommand
  have : (tokenize line).isEmpty = false := by
    cases hx : tokenize line with
    | nil => exact absurd hx h
    | cons _ _ => rfl
  simp only [this]
  rfl

theorem processCommand_empty (sys : Sys) (line : Str) (w : World)
    (h : tokenize line = []) : processCommand sys line w = .continues w := by
  unfold processCommand
  simp [h]

theorem dispatch_ne_undefined (sys : Sys) (pc : Parsed) (w w' : World) :
    dispatch sys pc w ≠ .undefinedBehaviour w' := by
  by_cases h : pc.cleaned.head? = some "quit".toList
  · rw [dispatch_quit sys pc w h]; intro hx; cases hx
  · obtain ⟨w'', hw⟩ := dispatch_continues sys pc w h
    rw [hw]; intro hx; cases hx

/-- C4 (what the code does): on `ls >` and on `ls > &` the scan reads
`tokens[tokens.size()]`; in general `processCommand` performs this
out-of-bounds read exactly on the lines with at least one token whose scanned
tokens have an operator without a following token. -/
theorem processCommand_out_of_bounds (sys : Sys) (w : World) :
    processCommand sys "ls >".toList w = .undefinedBehaviour w ∧
    processCommand sys "ls > &".toList w = .undefinedBehaviour w ∧
    (∀ line, processCommand sys line w = .undefinedBehaviour w ↔
      (tokenize line ≠ [] ∧ wellFormedLine line = false)) := by
  refine ⟨rfl, rfl, ?_⟩
  intro line
  by_cases hempty : tokenize line = []
  · rw [processCommand_empty sys line w hempty]
    constructor
    · intro h; cases h
    · intro h; exact absurd hempty h.1
  · rw [processCommand_nonempty sys line w hempty, classify_eq]
    unfold wellFormedLine
    cases hwf : wellFormed (stripBackground (tokenize line)).2 with
    | true =>
      rw [if_pos rfl]
      constructor
      · intro h; exact absurd h (dispatch_ne_undefined _ _ _ _)
      · intro h; cases h.2
    | false =>
      rw [if_neg Bool.false_ne_true]
      exact ⟨fun _ => ⟨hempty, rfl⟩, fun _ => rfl⟩

/-! ## Which redirection wins -/

theorem getLast_filter_range (q : Nat → Bool) (n : Nat) :
    (∀ i, ((List.range n).filter q).getLast? = some i →
      i < n ∧ q i = true ∧ ∀ j, i < j → j < n → q j = false) ∧
    (((List.range n).filter q).getLast? = none → ∀ j, j < n → q j = false) := by
  induction n with
  | zero =>
    constructor
    · intro i h; simp at h
    · intro _ j hj; omega
  | succ n ih =>
    rw [List.range_succ, List.filter_append, List.getLast?_append]
    cases hq : q n with
    | true =>
      simp only [List.filter_cons, hq, if_true, List.filter_nil, List.getLast?_singleton,
        Option.or_some]
      constructor
      · intro i hi
        cases hi
        exact ⟨by omega, hq, fun j h1 h2 => by omega⟩
      · intro h; cases h
    | false =>
      simp only [List.filter_cons, hq, Bool.false_eq_true, if_false, List.filter_nil,
        List.getLast?_nil, Option.none_or]
      constructor
      · intro i hi
        obtain ⟨h1, h2, h3⟩ := ih.1 i hi
        refine ⟨by omega, h2, ?_⟩
        intro j hj1 hj2
        by_cases hjn : j = n
        · rw [hjn]; exact hq
        · exact h3 j hj1 (by omega)
      · intro h j hj
        by_cases hjn : j = n
        · rw [hjn]; exact hq
        · exact ih.2 h j (by omega)

theorem lastOperator_some (p : Str → Bool) (tokens : List Str) (i : Nat)
    (h : lastOperator p tokens = some i) :
    i < tokens.length ∧ isOperatorAt tokens i = true ∧ p (tokens.getD i []) = true ∧
    ∀ j, i < j → j < tokens.length →
      (isOperatorAt tokens j && p (tokens.getD j [])) = false := by
  obtain ⟨h1, h2, h3⟩ := (getLast_filter_range
    (fun i => isOperatorAt tokens i && p (tokens.getD i [])) tokens.length).1 i h
  simp only [Bool.and_eq_true] at h2
  exact ⟨h1, h2.1, h2.2, h3⟩

theorem lastOperator_none (p : Str → Bool) (tokens : List Str)
    (h : lastOperator p tokens = none) :
    ∀ j, j < tokens.length → (isOperatorAt tokens j && p (tokens.getD j [])) = false :=
  (getLast_filter_range
    (fun i => isOperatorAt tokens i && p (tokens.getD i [])) tokens.length).2 h

theorem classify_nil_cleaned (pc : Parsed) (h : classify [] = some pc) : pc.cleaned = [] := by
  have : classify [] = some (initialParsed false) := rfl
  rw [this] at h
  cases h
  rfl

/-- C10: on a well-formed line the last redirection of each direction wins.
The output path is the token after the last `>` or `>>` the scan acts upon and
append is true exactly when that operator is `>>`; the input path is the token
after the last `<` acted upon; without an output operator the output path is
empty and append is false (likewise the input path without `<`). These are the
values handed to `executeExternal` when the command is not a built-in. For
instance `cat >> a > b` ends with output `b` and append=false. -/
theorem last_redirection_wins (tokens : List Str)
    (hwf : wellFormed (stripBackground tokens).2 = true) :
    ∃ pc, classify tokens = some pc ∧
      (∀ i, lastOperator isOutputOp (stripBackground tokens).2 = some i →
        (isOperatorAt (stripBackground tokens).2 i = true ∧
         isOutputOp ((stripBackground tokens).2.getD i []) = true ∧
         ∀ j, i < j → j < (stripBackground tokens).2.length →
           (isOperatorAt (stripBackground tokens).2 j &&
             isOutputOp ((stripBackground tokens).2.getD j [])) = false) ∧
        pc.outputFile = (stripBackground tokens).2.getD (i + 1) [] ∧
        (pc.append = true ↔ (stripBackground tokens).2.getD i [] = ">>".toList)) ∧
      (lastOperator isOutputOp (stripBackground tokens).2 = none →
        (∀ j, j < (stripBackground tokens).2.length →
          (isOperatorAt (stripBackground tokens).2 j &&
            isOutputOp ((stripBackground tokens).2.getD j [])) = false) ∧
        pc.outputFile = [] ∧ pc.append = false) ∧
      (∀ i, lastOperator isInputOp (stripBackground tokens).2 = some i →
        (isOperatorAt (stripBackground tokens).2 i = true ∧
         (stripBackground tokens).2.getD i [] = "<".toList ∧
         ∀ j, i < j → j < (stripBackground tokens).2.length →
           (isOperatorAt (stripBackground tokens).2 j &&
             isInputOp ((stripBackground tokens).2.getD j [])) = false) ∧
        pc.inputFile = (stripBackground tokens).2.getD (i + 1) []) ∧
      (lastOperator isInputOp (stripBackground tokens).2 = none → pc.inputFile = []) ∧
      (∀ (sys : Sys) (w : World) (line : Str) (cmd : Str) (args : List Str),
        tokenize line = tokens → pc.cleaned = cmd :: args → isBuiltin cmd = false →
        processCommand sys line w =
          .continues (executeExternal sys pc.cleaned pc.background pc.inputFile
            pc.outputFile pc.append w)) ∧
      classify ["cat".toList, ">>".toList, "a".toList, ">".toList, "b".toList] =
        some { cleaned := ["cat".toList], background := false, inputFile := [],
               outputFile := "b".toList, append := false } := by
  have hcl : classify tokens = some (scanResult (stripBackground tokens).2
      (initialParsed (stripBackground tokens).1)) := by
    rw [classify_eq, if_pos hwf]
  refine ⟨_, hcl, ?_, ?_, ?_, ?_, ?_, by decide⟩
  · intro i hi
    obtain ⟨_, h2, h3, h4⟩ := lastOperator_some _ _ i hi
    refine ⟨⟨h2, h3, h4⟩, ?_, ?_⟩
    · simp only [scanResult, targetOfLast, hi]
    · simp only [scanResult, appendOfLast, hi, beq_iff_eq]
  · intro hn
    refine ⟨lastOperator_none _ _ hn, ?_, ?_⟩
    · simp only [scanResult, targetOfLast, hn]; rfl
    · simp only [scanResult, appendOfLast, hn]; rfl
  · intro i hi
    obtain ⟨_, h2, h3, h4⟩ := lastOperator_some _ _ i hi
    refine ⟨⟨h2, ?_, h4⟩, ?_⟩
    · simpa [isInputOp] using h3
    · simp only [scanResult, targetOfLast, hi]
  · intro hn
    simp only [scanResult, targetOfLast, hn]; rfl
  · intro sys w line cmd args hline hc hb
    have hne : tokenize line ≠ [] := by
      intro h0
      rw [h0] at hline
      subst hline
      have := classify_nil_cleaned _ hcl
      rw [this] at hc
      cases hc
    rw [processCommand_nonempty sys line w hne, hline, hcl]
    exact dispatch_external sys _ w cmd args hc hb

/-- C10 at `cat >> a > b < c < d`: output `b`, append=false, input `d`. -/
theorem last_redirection_wins_witness :
    ∃ pc, classify ["cat".toList, ">>".toList, "a".toList, ">".toList, "b".toList,
        "<".toList, "c".toList, "<".toList, "d".toList] = some pc ∧
      pc.outputFile = "b".toList ∧ ¬ (pc.append = true) ∧ pc.inputFile = "d".toList := by
  obtain ⟨pc, hc, hout, _, hin, _⟩ := last_redirection_wins
    ["cat".toList, ">>".toList, "a".toList, ">".toList, "b".toList,
      "<".toList, "c".toList, "<".toList, "d".toList] (by decide)
  obtain ⟨_, ho, ha⟩ := hout 3 (by decide)
  obtain ⟨_, hi⟩ := hin 7 (by decide)
  refine ⟨pc, hc, ?_, ?_, ?_⟩
  · rw [ho]; decide
  · rw [ha]; decide
  · rw [hi]; decide

/-! ## Environment -/

theorem entryMatches_iff (name entry : Str) :
    entryMatches name entry = true ↔ ∃ v, entry = name ++ '=' :: v := by
  unfold entryMatches
  induction name generalizing entry with
  | nil =>
    cases entry with
    | nil => simp [List.isPrefixOf]
    | cons c cs =>
      simp only [List.nil_append, List.isPrefixOf, Bool.and_true, beq_iff_eq, List.cons.injEq]
      constructor
      · intro h; exact ⟨cs, h.symm, rfl⟩
      · rintro ⟨v, h, _⟩; exact h.symm
  | cons a as ih =>
    cases entry with
    | nil => simp [List.isPrefixOf]
    | cons c cs =>
      have hstep : ((a :: as) ++ ['=']).isPrefixOf (c :: cs) =
          (a == c && (as ++ ['=']).isPrefixOf cs) := rfl
      rw [hstep, Bool.and_eq_true, beq_iff_eq, ih]
      constructor
      · rintro ⟨h, v, hv⟩
        exact ⟨v, by rw [h, hv]; rfl⟩
      · rintro ⟨v, hv⟩
        simp only [List.cons_append, List.cons.injEq] at hv
        exact ⟨hv.1.symm, v, hv.2⟩

theorem name_eq_of_entry_eq (m n x y : Str) (hm : '=' ∉ m) (hn : '=' ∉ n)
    (h : m ++ '=' :: x = n ++ '=' :: y) : m = n := by
  induction m generalizing n with
  | nil =>
    cases n with
    | nil => rfl
    | cons b bs =>
      simp only [List.nil_append, List.cons_append, List.cons.injEq] at h
      exact absurd (h.1 ▸ List.mem_cons_self _ _) hn
  | cons a as ih =>
    cases n with
    | nil =>
      simp only [List.nil_append, List.cons_append, List.cons.injEq] at h
      exact absurd (h.1 ▸ List.mem_cons_self _ _) hm
    | cons b bs =>
      simp only [List.cons_append, List.cons.injEq] at h
      rw [h.1, ih bs (fun hx => hm (List.mem_cons_of_mem _ hx))
        (fun hx => hn (List.mem_cons_of_mem _ hx)) h.2]

theorem drop_entry (name value : Str) :
    (name ++ '=' :: value).drop (name.length + 1) = value := by
  induction name with
  | nil => rfl
  | cons a as ih => simp

theorem entryMatches_self (name value : Str) :
    entryMatches name (name ++ '=' :: value) = true :=
  (entryMatches_iff _ _).mpr ⟨value, rfl⟩

theorem entryMatches_other (m n v : Str) (hmn : m ≠ n) (hm : '=' ∉ m) (hn : '=' ∉ n) :
    entryMatches m (n ++ '=' :: v) = false := by
  cases h : entryMatches m (n ++ '=' :: v) with
  | false => rfl
  | true =>
    obtain ⟨x, hx⟩ := (entryMatches_iff _ _).mp h
    exact absurd (name_eq_of_entry_eq m n x v hm hn hx.symm) hmn

theorem getenv_cons (name entry : Str) (env : List Str) :
    getenv name (entry :: env) =
      if entryMatches name entry then some (entry.drop (name.length + 1))
      else getenv name env := by
  unfold getenv
  cases h : entryMatches name entry <;> simp [List.find?_cons, h]

theorem getenv_overwrite_same (name value : Str) (env : List Str) :
    getenv name (overwriteEntry name value env) = some value := by
  induction env with
  | nil => rw [overwriteEntry, getenv_cons, entryMatches_self, if_pos rfl, drop_entry]
  | cons entry entries ih =>
    rw [overwriteEntry]
    cases h : entryMatches name entry with
    | true => rw [if_pos rfl, getenv_cons, entryMatches_self, if_pos rfl, drop_entry]
    | false => rw [if_neg Bool.false_ne_true, getenv_cons, h, if_neg Bool.false_ne_true, ih]

theorem getenv_overwrite_other (m n v : Str) (env : List Str) (hmn : m ≠ n)
    (hm : '=' ∉ m) (hn : '=' ∉ n) :
    getenv m (overwriteEntry n v env) = getenv m env := by
  induction env with
  | nil =>
    rw [overwriteEntry, getenv_cons, entryMatches_other m n v hmn hm hn, if_neg Bool.false_ne_true]
  | cons entry entries ih =>
    rw [overwriteEntry]
    cases h : entryMatches n entry with
    | true =>
      obtain ⟨x, hx⟩ := (entryMatches_iff _ _).mp h
      rw [if_pos rfl, getenv_cons, entryMatches_other m n v hmn hm hn, if_neg Bool.false_ne_true,
        getenv_cons, hx, entryMatches_other m n x hmn hm hn, if_neg Bool.false_ne_true]
    | false =>
      rw [if_neg Bool.false_ne_true, getenv_cons, getenv_cons, ih]

theorem overwrite_of_getenv (name value : Str) (env : List Str)
    (h : getenv name env = some value) : overwriteEntry name value env = env := by
  induction env with
  | nil => cases h
  | cons entry entries ih =>
    rw [getenv_cons] at h
    rw [overwriteEntry]
    cases hm : entryMatches name entry with
    | true =>
      rw [hm, if_pos rfl] at h
      obtain ⟨x, hx⟩ := (entryMatches_iff _ _).mp hm
      rw [hx, drop_entry] at h
      cases h
      rw [if_pos rfl, hx]
    | false =>
      rw [hm, if_neg Bool.false_ne_true] at h
      rw [if_neg Bool.false_ne_true, ih h]

theorem overwrite_split (name value : Str) (env : List Str) :
    ∃ before after, overwriteEntry name value env = before ++ (name ++ '=' :: value) :: after := by
  induction env with
  | nil => exact ⟨[], [], rfl⟩
  | cons entry entries ih =>
    rw [overwriteEntry]
    cases h : entryMatches name entry with
    | true => exact ⟨[], entries, by simp⟩
    | false =>
      obtain ⟨b, a, hba⟩ := ih
      exact ⟨entry :: b, a, by simp [hba]⟩

theorem setenv_eq_overwrite (name value : Str) (env : List Str) (hne : name ≠ [])
    (heq : '=' ∉ name) : setenv name value env = overwriteEntry name value env := by
  unfold setenv
  have h1 : name.isEmpty = false := by cases name <;> simp_all
  have h2 : name.contains '=' = false := by
    cases h : name.contains '=' with
    | false => rfl
    | true => exact absurd (by simpa using h) heq
  rw [h1, h2]
  rfl

theorem setenv_pwd (value : Str) (env : List Str) :
    setenv "PWD".toList value env = overwriteEntry "PWD".toList value env :=
  setenv_eq_overwrite _ _ _ (by decide) (by decide)

theorem cstr_eq_self (s : Str) (h : Char.ofNat 0 ∉ s) : cstr s = s := by
  unfold cstr
  induction s with
  | nil => rfl
  | cons c cs ih =>
    have hc : c ≠ Char.ofNat 0 := fun hx => h (hx ▸ List.mem_cons_self _ _)
    have hcs : Char.ofNat 0 ∉ cs := fun hx => h (List.mem_cons_of_mem _ hx)
    rw [List.takeWhile_cons, if_pos (by simpa using hc), ih hcs]

/-- The built-in `set` hands the C strings of its two arguments to `setenv`. -/
theorem dispatch_set (sys : Sys) (name value : Str) (more : List Str) (w : World)
    (background : Bool) (inputFile outputFile : Str) (append : Bool) :
    dispatch sys { cleaned := "set".toList :: name :: value :: more, background := background,
                   inputFile := inputFile, outputFile := outputFile, append := append } w =
      .continues { w with env := setenv (cstr name) (cstr value) w.env } := rfl

theorem tokenize_mem_ne_nil (line t : Str) (h : t ∈ tokenize line) : t ≠ [] := by
  rw [tokenize_eq_maximalRuns] at h
  exact ((tokenizeLoop_fuel (line.length + 1) line [] (by omega)).2.1 t h).1

/-! ## Built-ins -/

theorem getLast?_append_two (xs : List Str) (a b : Str) :
    (xs ++ [a, b]).getLast? = some b := by
  have : xs ++ [a, b] = (xs ++ [a]) ++ [b] := by simp
  rw [this, List.getLast?_concat]

/-- C5 (amended): `echo` is a built-in, so the redirection parsed from the
line is not applied to it. For operator-free words `ws` and a target `f` other
than `&`, processing `echo ws > f` or `echo ws >> f` writes the echo text
(each word followed by one space, then a newline) to the shell's own standard
output and changes nothing else: no child is started and `f` is not opened. -/
theorem echo_ignores_redirection (sys : Sys) (line : Str) (ws : List Str) (op f : Str)
    (w : World)
    (htok : tokenize line = "echo".toList :: ws ++ [op, f])
    (hop : op = ">".toList ∨ op = ">>".toList)
    (hws : ∀ a ∈ ws, isRedirOp a = false) (hf : f ≠ "&".toList) :
    processCommand sys line w = .continues { w with out := w.out ++ echoText ws } ∧
    classify (tokenize line) =
      some { cleaned := "echo".toList :: ws, background := false, inputFile := [],
             outputFile := f, append := decide (op = ">>".toList) } := by
  have hne : tokenize line ≠ [] := by rw [htok]; simp
  have hargs : ∀ a ∈ "echo".toList :: ws, isRedirOp a = false := by
    intro a ha
    rcases List.mem_cons.mp ha with rfl | ha
    · decide
    · exact hws a ha
  have hstrip : stripBackground ("echo".toList :: ws ++ [op, f]) =
      (false, "echo".toList :: ws ++ [op, f]) := by
    unfold stripBackground
    rw [getLast?_append_two, if_neg]
    intro h
    exact hf (Option.some.inj h)
  have hcl : classify (tokenize line) =
      some { cleaned := "echo".toList :: ws, background := false, inputFile := [],
             outputFile := f, append := decide (op = ">>".toList) } := by
    rw [htok, classify, hstrip, scan_append_args _ _ _ hargs]
    rcases hop with rfl | rfl <;> rfl
  refine ⟨?_, hcl⟩
  rw [processCommand_nonempty sys line w hne, hcl]
  rfl

/-- C5 (amended) at `echo hello > out.txt`. -/
theorem echo_ignores_redirection_witness :
    processCommand sysAll "echo hello > out.txt".toList (worldOf [] []) =
      .continues { worldOf [] [] with out := (worldOf [] []).out ++ echoText ["hello".toList] } :=
  (echo_ignores_redirection sysAll "echo hello > out.txt".toList ["hello".toList] ">".toList
    "out.txt".toList (worldOf [] []) (by decide) (Or.inl rfl) (by decide) (by decide)).1

/-- C5 as stated fails at `echo hello > out.txt`, even when every system call
would succeed: the text goes to the shell's standard output, and no child
(the only code that opens a redirection target) is started. -/
theorem echo_redirection_counterexample :
    processCommand sysAll "echo hello > out.txt".toList (worldOf [] []) =
      .continues { cwd := "/home".toList, env := [], out := "hello \n".toList, err := [],
                   cin := { buf := [], eofbit := false, failbit := false }, spawned := [] } ∧
    processCommand sysAll "echo hello >> out.txt".toList (worldOf [] []) =
      .continues { cwd := "/home".toList, env := [], out := "hello \n".toList, err := [],
                   cin := { buf := [], eofbit := false, failbit := false }, spawned := [] } := by
  decide

/-- C6 (amended): when `chdir` fails, `cd path` reports the error and leaves
the working directory and every environment variable other than `PWD`
unchanged; `PWD` is set to the (unchanged) working directory, so the
environment as a whole is unchanged whenever `PWD` already held the working
directory. -/
theorem cd_failure (sys : Sys) (line : Str) (pc : Parsed) (path : Str) (rest : List Str)
    (w : World)
    (hcl : classify (tokenize line) = some pc)
    (hcmd : pc.cleaned = "cd".toList :: path :: rest)
    (hfail : sys.chdir w.cwd path = none) :
    processCommand sys line w =
      .continues { w with err := w.err ++ ["cd".toList],
                          env := setenv "PWD".toList w.cwd w.env } ∧
    (∀ m : Str, m ≠ "PWD".toList → '=' ∉ m →
      getenv m (setenv "PWD".toList w.cwd w.env) = getenv m w.env) ∧
    getenv "PWD".toList (setenv "PWD".toList w.cwd w.env) = some w.cwd ∧
    (getenv "PWD".toList w.env = some w.cwd → setenv "PWD".toList w.cwd w.env = w.env) := by
  have hne : tokenize line ≠ [] := by
    intro h0
    rw [h0] at hcl
    have := classify_nil_cleaned pc hcl
    rw [this] at hcmd
    cases hcmd
  refine ⟨?_, ?_, ?_, ?_⟩
  · rw [processCommand_nonempty sys line w hne, hcl]
    simp only [dispatch, hcmd, changeDirectory, hfail, if_true]
  · intro m hm heq
    rw [setenv_pwd]
    exact getenv_overwrite_other m _ _ _ hm heq (by decide)
  · rw [setenv_pwd]
    exact getenv_overwrite_same _ _ _
  · intro h
    rw [setenv_pwd]
    exact overwrite_of_getenv _ _ _ h

/-- C6 (amended) at `cd /nonexistent-path` in `/home` with `PWD=/home`. -/
theorem cd_failure_witness :
    processCommand sysNone "cd /nonexistent-path".toList (worldOf ["PWD=/home".toList] []) =
      .continues { worldOf ["PWD=/home".toList] [] with
        err := (worldOf ["PWD=/home".toList] []).err ++ ["cd".toList],
        env := setenv "PWD".toList (worldOf ["PWD=/home".toList] []).cwd
          (worldOf ["PWD=/home".toList] []).env } ∧
    setenv "PWD".toList "/home".toList ["PWD=/home".toList] = ["PWD=/home".toList] :=
  ⟨(cd_failure sysNone "cd /nonexistent-path".toList
      { cleaned := ["cd".toList, "/nonexistent-path".toList], background := false,
        inputFile := [], outputFile := [], append := false }
      "/nonexistent-path".toList [] (worldOf ["PWD=/home".toList] [])
      (by decide) rfl rfl).1,
   (cd_failure sysNone "cd /nonexistent-path".toList
      { cleaned := ["cd".toList, "/nonexistent-path".toList], background := false,
        inputFile := [], outputFile := [], append := false }
      "/nonexistent-path".toList [] (worldOf ["PWD=/home".toList] [])
      (by decide) rfl rfl).2.2.2 (by decide)⟩

/-- C6 as stated fails at `cd /nonexistent-path` in `/home` with `PWD=/tmp`
(as after `set PWD /tmp`): `chdir` fails, the working directory stays `/home`,
and `PWD` changes from `/tmp` to `/home`. -/
theorem cd_failure_counterexample :
    sysNone.chdir "/home".toList "/nonexistent-path".toList = none ∧
    getenv "PWD".toList (worldOf ["PWD=/tmp".toList] []).env = some "/tmp".toList ∧
    processCommand sysNone "cd /nonexistent-path".toList (worldOf ["PWD=/tmp".toList] []) =
      .continues { cwd := "/home".toList, env := ["PWD=/home".toList], out := [],
                   err := ["cd".toList],
                   cin := { buf := [], eofbit := false, failbit := false }, spawned := [] } := by
  decide

/-- C7 (amended): for tokens `N` and `V` that are not `<`, `>` or `>>`, with
`V` other than `&`, no `=` in `N` and no NUL character in `N` or `V`,
processing `set N V` maps `N` to `V` in the environment (overwriting an
earlier value) and leaves every other variable unchanged, so that a following `environ` prints a line `N=V`. When the clean
argument list of a `set` command has fewer than three entries (fewer than two
arguments), the usage message is printed and the environment is unchanged. -/
theorem set_variable (sys : Sys) (w : World) :
    (∀ line name value : Str, tokenize line = ["set".toList, name, value] →
      isRedirOp name = false → isRedirOp value = false → value ≠ "&".toList → '=' ∉ name →
      Char.ofNat 0 ∉ name → Char.ofNat 0 ∉ value →
      processCommand sys line w = .continues { w with env := setenv name value w.env } ∧
      getenv name (setenv name value w.env) = some value ∧
      (∀ m : Str, m ≠ name → '=' ∉ m →
        getenv m (setenv name value w.env) = getenv m w.env) ∧
      (∃ before after : List Str,
        setenv name value w.env = before ++ (name ++ '=' :: value) :: after ∧
        processCommand sys "environ".toList { w with env := setenv name value w.env } =
          .continues { w with
            env := setenv name value w.env,
            out := w.out ++ ((before.map (fun e => e ++ ['\n'])).flatten ++
              (name ++ '=' :: value ++ ['\n']) ++
              (after.map (fun e => e ++ ['\n'])).flatten) })) ∧
    (∀ (line : Str) (pc : Parsed), classify (tokenize line) = some pc →
      pc.cleaned.head? = some "set".toList → pc.cleaned.length < 3 →
      processCommand sys line w =
        .continues { w with out := w.out ++ "Usage: set VARIABLE VALUE\n".toList }) := by
  constructor
  · intro line name value htok hname hvalue hamp heq hnul hnulv
    have hne : tokenize line ≠ [] := by rw [htok]; simp
    have hname_ne : name ≠ [] := tokenize_mem_ne_nil line name (by rw [htok]; simp)
    have hput : setenv name value w.env = overwriteEntry name value w.env :=
      setenv_eq_overwrite _ _ _ hname_ne heq
    have hargs : ∀ a ∈ ["set".toList, name, value], isRedirOp a = false := by
      intro a ha
      simp only [List.mem_cons, List.mem_singleton, List.not_mem_nil, or_false] at ha
      rcases ha with rfl | rfl | rfl
      · decide
      · exact hname
      · exact hvalue
    have hstrip : stripBackground ["set".toList, name, value] =
        (false, ["set".toList, name, value]) := by
      unfold stripBackground
      rw [if_neg]
      intro h
      exact hamp (Option.some.inj h)
    have hcl : classify (tokenize line) =
        some { cleaned := ["set".toList, name, value], background := false, inputFile := [],
               outputFile := [], append := false } := by
      rw [htok, classify, hstrip]
      have := scan_append_args ["set".toList, name, value] [] (initialParsed false) hargs
      rw [List.append_nil] at this
      rw [this]
      rfl
    refine ⟨?_, ?_, ?_, ?_⟩
    · rw [processCommand_nonempty sys line w hne, hcl]
      simp only []
      rw [dispatch_set, cstr_eq_self name hnul, cstr_eq_self value hnulv]
    · rw [hput]; exact getenv_overwrite_same _ _ _
    · intro m hm hmeq
      rw [hput]; exact getenv_overwrite_other m _ _ _ hm hmeq heq
    · obtain ⟨before, after, hba⟩ := overwrite_split name value w.env
      refine ⟨before, after, by rw [hput, hba], ?_⟩
      have henv : processCommand sys "environ".toList
          { w with env := setenv name value w.env } =
          .continues (printEnvironment { w with env := setenv name value w.env }) := rfl
      rw [henv, printEnvironment, hput, hba]
      simp
  · intro line pc hcl hhead hlen
    have hne : tokenize line ≠ [] := by
      intro h0
      rw [h0] at hcl
      have := classify_nil_cleaned pc hcl
      rw [this] at hhead
      cases hhead
    rw [processCommand_nonempty sys line w hne, hcl]
    cases hc : pc.cleaned with
    | nil => rw [hc] at hhead; cases hhead
    | cons cmd args =>
      rw [hc] at hhead hlen
      simp only [List.head?_cons, Option.some.injEq] at hhead
      subst hhead
      cases args with
      | nil => simp only [dispatch, hc]; rfl
      | cons a1 args1 =>
        cases args1 with
        | nil => simp only [dispatch, hc]; rfl
        | cons a2 args2 => simp only [List.length_cons] at hlen; omega

/-- C7 (amended) at `set FOO bar` with `FOO=old` in the environment, and at
`set FOO` (usage message). -/
theorem set_variable_witness :
    (processCommand sysNone "set FOO bar".toList (worldOf ["FOO=old".toList] []) =
      .continues { worldOf ["FOO=old".toList] [] with
        env := setenv "FOO".toList "bar".toList (worldOf ["FOO=old".toList] []).env } ∧
     setenv "FOO".toList "bar".toList ["FOO=old".toList] = ["FOO=bar".toList]) ∧
    processCommand sysNone "set FOO".toList (worldOf ["FOO=old".toList] []) =
      .continues { worldOf ["FOO=old".toList] [] with
        out := (worldOf ["FOO=old".toList] []).out ++ "Usage: set VARIABLE VALUE\n".toList } :=
  ⟨⟨((set_variable sysNone (worldOf ["FOO=old".toList] [])).1 "set FOO bar".toList
      "FOO".toList "bar".toList (by decide) (by decide) (by decide) (by decide)
      (by decide) (by decide) (by decide)).1,
    by decide⟩,
   (set_variable sysNone (worldOf ["FOO=old".toList] [])).2 "set FOO".toList
     { cleaned := ["set".toList, "FOO".toList], background := false, inputFile := [],
       outputFile := [], append := false } (by decide) (by decide) (by decide)⟩

/-- C7 as stated fails for some name and value tokens: `set FOO &` and
`set < bar` only print the usage message, and `set A=B c` is rejected by
`setenv`; in all three the environment stays empty. With a NUL character
inside the value token (`a`, NUL, `b`) the variable `FOO` is set to `a` only. -/
theorem set_variable_counterexample :
    processCommand sysNone "set FOO &".toList (worldOf [] []) =
      .continues { cwd := "/home".toList, env := [],
                   out := "Usage: set VARIABLE VALUE\n".toList, err := [],
                   cin := { buf := [], eofbit := false, failbit := false }, spawned := [] } ∧
    processCommand sysNone "set < bar".toList (worldOf [] []) =
      .continues { cwd := "/home".toList, env := [],
                   out := "Usage: set VARIABLE VALUE\n".toList, err := [],
                   cin := { buf := [], eofbit := false, failbit := false }, spawned := [] } ∧
    processCommand sysNone "set A=B c".toList (worldOf [] []) =
      .continues { cwd := "/home".toList, env := [], out := [], err := [],
                   cin := { buf := [], eofbit := false, failbit := false }, spawned := [] } ∧
    tokenize ("set FOO a".toList ++ Char.ofNat 0 :: "b".toList) =
      ["set".toList, "FOO".toList, "a".toList ++ Char.ofNat 0 :: "b".toList] ∧
    processCommand sysNone ("set FOO a".toList ++ Char.ofNat 0 :: "b".toList) (worldOf [] []) =
      .continues { cwd := "/home".toList, env := ["FOO=a".toList], out := [], err := [],
                   cin := { buf := [], eofbit := false, failbit := false }, spawned := [] } := by
  decide

/-! ## The main loops -/

theorem getline_not_good (s : IStream) (str : Str) (h : s.good = false) :
    getline s str = (str, { s with failbit := true }) := by
  unfold getline
  simp [h]

/-- Once `cin` is at end-of-input, every further iteration of the interactive
loop dispatches the line still held in `input` again. -/
theorem interactiveLoop_at_eof (sys : Sys) (input text : Str)
    (hproc : ∀ w : World, processCommand sys input w = .continues { w with out := w.out ++ text })
    (n : Nat) : ∀ w : World, w.cin.eofbit = true →
      ∃ w', interactiveLoop sys n input w = .running w' ∧
        w'.out = w.out ++ (List.replicate n (w.cwd ++ " > ".toList ++ text)).flatten := by
  induction n with
  | zero => intro w _; exact ⟨w, rfl, by simp⟩
  | succ n ih =>
    intro w heof
    have hgood : (displayPrompt w).cin.good = false := by
      simp [displayPrompt, IStream.good, heof]
    rw [interactiveLoop]
    simp only [getline_not_good _ input hgood, hproc]
    obtain ⟨w', h1, h2⟩ := ih
      { cwd := w.cwd, env := w.env, out := w.out ++ w.cwd ++ " > ".toList ++ text,
        err := w.err, cin := { w.cin with failbit := true }, spawned := w.spawned } heof
    refine ⟨w', h1, ?_⟩
    rw [h2]
    simp [List.replicate_succ]

theorem processCommand_exited (sys : Sys) (line : Str) (w w' : World) (status : Nat)
    (h : processCommand sys line w = .exited status w') :
    isQuitLine line = true ∧ status = 0 := by
  by_cases hempty : tokenize line = []
  · rw [processCommand_empty sys line w hempty] at h; cases h
  · rw [processCommand_nonempty sys line w hempty] at h
    unfold isQuitLine
    cases hcl : classify (tokenize line) with
    | none => rw [hcl] at h; cases h
    | some pc =>
      rw [hcl] at h
      by_cases hq : pc.cleaned.head? = some "quit".toList
      · have hd : dispatch sys pc w = .exited 0 w := dispatch_quit sys pc w hq
        have h2 : dispatch sys pc w = .exited status w' := h
        rw [hd] at h2
        cases h2
        exact ⟨by simp [hq], rfl⟩
      · obtain ⟨w'', hw⟩ := dispatch_continues sys pc w hq
        have h2 : dispatch sys pc w = .exited status w' := h
        rw [hw] at h2
        cases h2

/-- The interactive loop ends only inside `processCommand`, on a `quit` line. -/
theorem interactiveLoop_exited (sys : Sys) (n : Nat) :
    ∀ (input : Str) (w w' : World) (status : Nat),
      interactiveLoop sys n input w = .exited status w' →
      ∃ (line : Str) (w0 : World), isQuitLine line = true ∧
        processCommand sys line w0 = .exited status w' := by
  induction n with
  | zero => intro input w w' status h; cases h
  | succ n ih =>
    intro input w w' status h
    rw [interactiveLoop] at h
    cases hp : processCommand sys (getline (displayPrompt w).cin input).1
        { displayPrompt w with cin := (getline (displayPrompt w).cin input).2 } with
    | continues w1 =>
      rw [hp] at h
      exact ih _ w1 w' status h
    | exited st w1 =>
      rw [hp] at h
      cases h
      exact ⟨_, _, (processCommand_exited sys _ _ _ _ hp).1, hp⟩
    | undefinedBehaviour w1 => rw [hp] at h; cases h
    | running w1 => rw [hp] at h; cases h

/-- C8 (what the code does): in interactive mode the loop never ends at
end-of-input. With standard input `echo hi` (no final newline) every
iteration after the first dispatches `echo hi` again: after any number of
iterations the shell is still running and has printed the prompt and `hi`
once per iteration. With empty standard input it prints prompts forever. In
general the interactive shell ends only when a `quit` line is dispatched. -/
theorem interactive_never_terminates (sys : Sys) (fuel : Nat) :
    (∃ w', main sys (fuel + 1) ["myshell".toList] (worldOf [] "echo hi".toList) = .running w' ∧
      w'.out = (List.replicate (fuel + 1) "/home > hi \n".toList).flatten) ∧
    (∃ w', main sys (fuel + 1) ["myshell".toList] (worldOf [] []) = .running w' ∧
      w'.out = (List.replicate (fuel + 1) "/home > ".toList).flatten) ∧
    (∀ (w w' : World) (status : Nat),
      main sys fuel ["myshell".toList] w = .exited status w' →
      ∃ (line : Str) (w0 : World), isQuitLine line = true ∧
        processCommand sys line w0 = .exited status w') := by
  refine ⟨?_, ?_, ?_⟩
  · obtain ⟨w', h1, h2⟩ := interactiveLoop_at_eof sys "echo hi".toList "hi \n".toList
      (fun _ => rfl) fuel
      { cwd := "/home".toList, env := [], out := "/home > hi \n".toList, err := [],
        cin := { buf := [], eofbit := true, failbit := false }, spawned := [] } rfl
    refine ⟨w', ?_, ?_⟩
    · rw [← h1]; rfl
    · rw [h2, List.replicate_succ, List.flatten_cons]; rfl
  · obtain ⟨w', h1, h2⟩ := interactiveLoop_at_eof sys [] []
      (fun _ => by simp [processCommand_empty sys [] _ (by decide)]) fuel
      { cwd := "/home".toList, env := [], out := "/home > ".toList, err := [],
        cin := { buf := [], eofbit := true, failbit := true }, spawned := [] } rfl
    refine ⟨w', ?_, ?_⟩
    · rw [← h1]; rfl
    · rw [h2, List.replicate_succ, List.flatten_cons]; simp
  · intro w w' status h
    exact interactiveLoop_exited sys fuel [] w w' status h

theorem fileLines_nil : fileLines [] = [] := by decide

theorem fileLines_no_newline (content : List Char) (hne : content ≠ [])
    (h : ∀ c ∈ content, ¬ ((c == '\n') = true)) : fileLines content = [content] := by
  unfold fileLines
  rw [List.splitOnP_eq_single _ _ h]
  simp [hne]

theorem fileLines_newline (l rest : List Char) (h : ∀ c ∈ l, ¬ ((c == '\n') = true)) :
    fileLines (l ++ '\n' :: rest) = l :: fileLines rest := by
  unfold fileLines
  rw [List.splitOnP_first _ _ h '\n' (by decide) rest]
  have hne := List.splitOnP_ne_nil (fun c => c == '\n') rest
  cases hs : List.splitOnP (fun c => c == '\n') rest with
  | nil => exact absurd hs hne
  | cons p ps =>
    simp only [List.getLast?_cons_cons]
    split
    · rw [List.dropLast_cons_of_ne_nil (by simp)]
    · rfl

theorem batchLoop_not_good (sys : Sys) (n : Nat) (file : IStream) (line : Str) (w : World)
    (h : file.good = false) : batchLoop sys (n + 1) file line w = .exited 0 w := by
  rw [batchLoop, getline_not_good _ _ h]
  rfl

/-- The batch loop dispatches the lines of the file in order; `content.length + 1`
iterations are always enough. -/
theorem batchLoop_eq_runLines (sys : Sys) (fuel : Nat) :
    ∀ (content : List Char) (line : Str) (w : World), content.length < fuel →
      batchLoop sys fuel { buf := content, eofbit := false, failbit := false } line w =
        runLines sys (fileLines content) w := by
  induction fuel with
  | zero => intro content line w h; omega
  | succ n ih =>
    intro content line w hlen
    have hsplit : content.takeWhile (fun c => c != '\n') ++
        content.dropWhile (fun c => c != '\n') = content := List.takeWhile_append_dropWhile _ _
    have htake : ∀ c ∈ content.takeWhile (fun c => c != '\n'), ¬ ((c == '\n') = true) := by
      intro c hc
      have := List.mem_takeWhile_imp hc
      simpa using this
    rw [batchLoop]
    unfold getline
    simp only [IStream.good, Bool.not_false, Bool.and_self, Bool.not_true, Bool.false_eq_true,
      if_false]
    cases hd : content.dropWhile (fun c => c != '\n') with
    | nil =>
      rw [hd, List.append_nil] at hsplit
      simp only [hsplit]
      cases hc : content with
      | nil => simp [fileLines_nil, runLines]
      | cons c cs =>
        have hne : content ≠ [] := by rw [hc]; simp
        rw [← hc, fileLines_no_newline content hne (by rw [← hsplit]; exact htake)]
        have hfuel : ∃ m, n = m + 1 := by
          rw [hc] at hlen
          simp only [List.length_cons] at hlen
          exact ⟨n - 1, by omega⟩
        obtain ⟨m, rfl⟩ := hfuel
        have hemp : content.isEmpty = false := by rw [hc]; rfl
        simp only [hemp, Bool.false_eq_true, if_false, runLines]
        cases processCommand sys content w with
        | continues w' =>
          exact batchLoop_not_good sys m { buf := [], eofbit := true, failbit := false } _ w' rfl
        | exited st w' => rfl
        | undefinedBehaviour w' => rfl
        | running w' => rfl
    | cons d rest =>
      have hdnl : d = '\n' := by
        have := List.head_dropWhile_not (fun c => c != '\n') content (by rw [hd]; simp)
        simp only [hd, List.head_cons] at this
        simpa using this
      subst hdnl
      rw [hd] at hsplit
      have hlen' : rest.length < n := by
        rw [← hsplit] at hlen
        simp only [List.length_append, List.length_cons] at hlen
        omega
      have hfl := fileLines_newline _ rest htake
      rw [hsplit] at hfl
      simp only [hfl, Bool.false_eq_true, if_false, runLines]
      cases processCommand sys (content.takeWhile (fun c => c != '\n')) w with
      | continues w' => exact ih rest _ w' hlen'
      | exited st w' => rfl
      | undefinedBehaviour w' => rfl
      | running w' => rfl

theorem processCommand_quit (sys : Sys) (line : Str) (w : World)
    (h : isQuitLine line = true) : processCommand sys line w = .exited 0 w := by
  unfold isQuitLine at h
  cases hcl : classify (tokenize line) with
  | none => rw [hcl] at h; cases h
  | some pc =>
    rw [hcl] at h
    have hhead : pc.cleaned.head? = some "quit".toList := by simpa using h
    have hne : tokenize line ≠ [] := by
      intro h0
      rw [h0] at hcl
      have := classify_nil_cleaned pc hcl
      rw [this] at hhead
      cases hhead
    rw [processCommand_nonempty sys line w hne, hcl]
    exact dispatch_quit sys pc w hhead

theorem processCommand_continues (sys : Sys) (line : Str) (w : World)
    (hwf : wellFormedLine line = true) (hq : isQuitLine line = false) :
    ∃ w', processCommand sys line w = .continues w' := by
  by_cases hempty : tokenize line = []
  · exact ⟨w, processCommand_empty sys line w hempty⟩
  · unfold wellFormedLine at hwf
    have hcl := classify_eq (tokenize line)
    rw [if_pos hwf] at hcl
    rw [processCommand_nonempty sys line w hempty, hcl]
    apply dispatch_continues
    unfold isQuitLine at hq
    rw [hcl] at hq
    intro hx
    simp only [hx, beq_self_eq_true] at hq
    cases hq

theorem runLines_append (sys : Sys) (pre post : List Str)
    (hwf : ∀ l ∈ pre, wellFormedLine l = true) (hq : ∀ l ∈ pre, isQuitLine l = false) :
    ∀ w : World, ∃ w', dispatchAll sys pre w = some w' ∧
      runLines sys (pre ++ post) w = runLines sys post w' := by
  induction pre with
  | nil => intro w; exact ⟨w, rfl, rfl⟩
  | cons l ls ih =>
    intro w
    obtain ⟨w1, h1⟩ := processCommand_continues sys l w
      (hwf l (List.mem_cons_self _ _)) (hq l (List.mem_cons_self _ _))
    obtain ⟨w', h2, h3⟩ := ih (fun x hx => hwf x (List.mem_cons_of_mem _ hx))
      (fun x hx => hq x (List.mem_cons_of_mem _ hx)) w1
    refine ⟨w', ?_, ?_⟩
    · rw [dispatchAll, h1]; exact h2
    · rw [List.cons_append, runLines, h1]; exact h3

/-- C9: in batch mode on a file that opens, with well-formed lines, the lines
are dispatched one by one in file order. Without a line whose clean command
name is `quit`, all lines are dispatched and the process ends with status 0.
When `q` is the first such line, exactly the lines before it are dispatched,
then `q` ends the process at once with status 0, in the world those lines
left: no later line is dispatched. When the file cannot be opened, no line is
dispatched (only the message is printed) and the status is 1. -/
theorem batch_mode (sys : Sys) (fuel : Nat) (prog path : Str) (more : List Str) (w : World) :
    (sys.openFile path = none →
      main sys fuel (prog :: path :: more) w =
        .exited 1 { w with out := w.out ++ "Batch file not found\n".toList }) ∧
    (∀ content : List Char, sys.openFile path = some content → content.length < fuel →
      (∀ l ∈ fileLines content, wellFormedLine l = true) →
      ((∀ l ∈ fileLines content, isQuitLine l = false) →
        ∃ w', dispatchAll sys (fileLines content) w = some w' ∧
          main sys fuel (prog :: path :: more) w = .exited 0 w') ∧
      (∀ (pre : List Str) (q : Str) (post : List Str),
        fileLines content = pre ++ q :: post →
        (∀ l ∈ pre, isQuitLine l = false) → isQuitLine q = true →
        ∃ w', dispatchAll sys pre w = some w' ∧
          processCommand sys q w' = .exited 0 w' ∧
          main sys fuel (prog :: path :: more) w = .exited 0 w')) := by
  constructor
  · intro h
    simp only [main, h]
  · intro content hopen hfuel hwf
    have hmain : main sys fuel (prog :: path :: more) w =
        runLines sys (fileLines content) w := by
      simp only [main, hopen]
      exact batchLoop_eq_runLines sys fuel content [] w hfuel
    constructor
    · intro hq
      obtain ⟨w', h1, h2⟩ := runLines_append sys (fileLines content) [] hwf hq w
      rw [List.append_nil] at h2
      exact ⟨w', h1, by rw [hmain, h2]; rfl⟩
    · intro pre q post hsplit hpre hquit
      have hwfpre : ∀ l ∈ pre, wellFormedLine l = true := by
        intro l hl
        apply hwf
        rw [hsplit]
        exact List.mem_append_left _ hl
      obtain ⟨w', h1, h2⟩ := runLines_append sys pre (q :: post) hwfpre hpre w
      have hqx := processCommand_quit sys q w' hquit
      refine ⟨w', h1, hqx, ?_⟩
      rw [hmain, hsplit, h2, runLines, hqx]

/-- C9 on the file `echo a`, `quit`, `echo b`: only `a` is printed, status 0;
and on a file that cannot be opened: status 1. -/
theorem batch_mode_witness :
    main sysBatch 100 ["myshell".toList, "script".toList] (worldOf [] []) =
      .exited 0 { worldOf [] [] with out := "a \n".toList } ∧
    main sysNone 100 ["myshell".toList, "script".toList] (worldOf [] []) =
      .exited 1 { worldOf [] [] with
        out := (worldOf [] []).out ++ "Batch file not found\n".toList } := by
  refine ⟨?_, (batch_mode sysNone 100 "myshell".toList "script".toList [] (worldOf [] [])).1 rfl⟩
  obtain ⟨w', h1, _, h3⟩ :=
    ((batch_mode sysBatch 100 "myshell".toList "script".toList [] (worldOf [] [])).2
      "echo a\nquit\necho b\n".toList rfl (by decide) (by decide)).2
      ["echo a".toList] "quit".toList ["echo b".toList] (by decide) (by decide) (by decide)
  have hw : dispatchAll sysBatch ["echo a".toList] (worldOf [] []) =
      some { worldOf [] [] with out := "a \n".toList } := by decide
  rw [hw] at h1
  cases h1
  exact h3

end MyShell
